import Mathlib

/-!
Verification of the cargo-screeps build post-processing pipeline.

The development shallowly embeds the two source files of the repository:

* `src/build.rs` — artifact discovery, the binaryen optimization pass with
  its non-fatal fallback, and `process_js`, which strips the scaffold that
  the upstream generator wraps around the loader script and reassembles a
  platform-specific loader; and
* `cargo-screeps/src/setup.rs` — resolution of the platform configuration
  (TLS flag and port derivation).

The anchored scaffold matching in `process_js` is performed in Rust by
building a regular expression from a literal template: the template is
escaped, every run of literal whitespace is collapsed into the regex
fragment matching any (possibly empty) run of whitespace, and every
occurrence of the placeholder token XXX is turned into the fragment
matching any (possibly empty) identifier-safe string.  The resulting
pattern is a plain concatenation of literal characters, whitespace-run
elements and identifier-run elements, which we embed as a list of `Tok`.
Because in the two templates every whitespace-run element is followed by a
literal that is not a whitespace character, and every identifier-run
element is followed (possibly through one whitespace-run element) by a
literal that is neither an identifier character nor a whitespace
character, the greedy linear matcher `matchToks` computes exactly the
leftmost-first match of the Rust regex engine; `TokMatches` gives the
relational language semantics of a pattern, and the soundness and
completeness lemmas below connect the two.
-/

set_option maxRecDepth 100000

/-- The character class of the regex fragment matching whitespace, in the
default Unicode mode of the Rust regex crate (the class contains the ASCII
whitespace characters together with the Unicode space characters). -/
def isWsChar (c : Char) : Bool :=
  let n := c.toNat
  (9 ≤ n && n ≤ 13) || n == 32 || n == 133 || n == 160 || n == 5760 ||
    (8192 ≤ n && n ≤ 8202) || n == 8232 || n == 8233 || n == 8239 ||
    n == 8287 || n == 12288

/-- The character class of the fragment substituted for the module-name
placeholder: ASCII letters, digits, underscore and hyphen. -/
def isIdentChar (c : Char) : Bool :=
  let n := c.toNat
  (65 ≤ n && n ≤ 90) || (97 ≤ n && n ≤ 122) || (48 ≤ n && n ≤ 57) ||
    n == 95 || n == 45

theorem ws_ident_disjoint (c : Char) : isWsChar c = true → isIdentChar c = false := by
  simp only [isWsChar, isIdentChar, Bool.or_eq_true, Bool.and_eq_true, decide_eq_true_eq,
    beq_iff_eq, Bool.or_eq_false_iff, Bool.and_eq_false_iff, decide_eq_false_iff_not,
    Nat.not_le, beq_eq_false_iff_ne, ne_eq]
  omega

/-- One element of the pattern built from a scaffold template: a literal
character, a (possibly empty) whitespace run, or a (possibly empty)
identifier-safe run standing for the module-name placeholder. -/
inductive Tok where
  | lit (c : Char)
  | ws
  | ident
deriving DecidableEq, Repr

/-- Turns a scaffold template into its pattern.  The boolean flag records
whether the previously handled character was part of a whitespace run, so
that a whole run collapses into a single `Tok.ws`, exactly as the Rust
code collapses each run of literal whitespace into one flexible
whitespace fragment; each occurrence of the placeholder XXX becomes one
`Tok.ident`.  Escaping of regex metacharacters in the Rust code maps each
remaining literal character to a fragment matching exactly itself, hence
`Tok.lit`. -/
def tokAux : Bool → List Char → List Tok
  | _, [] => []
  | _, 'X' :: 'X' :: 'X' :: rest => Tok.ident :: tokAux false rest
  | inWs, c :: rest =>
    if isWsChar c then
      if inWs then tokAux true rest
      else Tok.ws :: tokAux true rest
    else Tok.lit c :: tokAux false rest

/-- Pattern of a template: collapse whitespace runs, replace XXX. -/
def tokenizeTemplate (l : List Char) : List Tok := tokAux false l

/-- The greedy matcher: consumes the pattern against the front of the
input and returns the unconsumed remainder of the input, or `none` when a
literal fails to match.  Whitespace-run and identifier-run elements
consume the maximal run of their class. -/
def matchToks : List Tok → List Char → Option (List Char)
  | [], s => some s
  | Tok.lit _ :: _, [] => none
  | Tok.lit c :: ts, x :: s => if x = c then matchToks ts s else none
  | Tok.ws :: ts, s => matchToks ts (s.dropWhile isWsChar)
  | Tok.ident :: ts, s => matchToks ts (s.dropWhile isIdentChar)

/-- Language semantics of a pattern: `TokMatches ts s` holds when the
string `s` is one of the strings the pattern `ts` matches in full. -/
inductive TokMatches : List Tok → List Char → Prop where
  | nil : TokMatches [] []
  | lit {c : Char} {ts : List Tok} {s : List Char} :
      TokMatches ts s → TokMatches (Tok.lit c :: ts) (c :: s)
  | wsCons {c : Char} {ts : List Tok} {s : List Char} :
      isWsChar c = true → TokMatches (Tok.ws :: ts) s →
      TokMatches (Tok.ws :: ts) (c :: s)
  | wsNil {ts : List Tok} {s : List Char} :
      TokMatches ts s → TokMatches (Tok.ws :: ts) s
  | idCons {c : Char} {ts : List Tok} {s : List Char} :
      isIdentChar c = true → TokMatches (Tok.ident :: ts) s →
      TokMatches (Tok.ident :: ts) (c :: s)
  | idNil {ts : List Tok} {s : List Char} :
      TokMatches ts s → TokMatches (Tok.ident :: ts) s

/-- The expected head scaffold of the generated loader script, transcribed
verbatim from the raw string `expected_prefix` in `process_js`
(src/build.rs); XXX is the module-name placeholder of the upstream
generator. -/
def preTemplate : List Char :=
  ("\"use strict\";\n\nif( typeof Rust === \"undefined\" ) \x7b\n    var Rust = \x7b\x7d;\n\x7d\n\n" ++
   "(function( root, factory ) \x7b\n    if( typeof define === \"function\" && define.amd ) \x7b\n" ++
   "        define( [], factory );\n    \x7d else if( typeof module === \"object\" && module.exports ) \x7b\n" ++
   "        module.exports = factory();\n    \x7d else \x7b\n        Rust.XXX = factory();\n    \x7d\n" ++
   "\x7d( this, function() \x7b\n    return (function( module_factory ) \x7b\n        var instance = module_factory();\n\n" ++
   "        if( typeof process === \"object\" && typeof process.versions === \"object\" && typeof process.versions.node === \"string\" ) \x7b\n" ++
   "            var fs = require( \"fs\" );\n            var path = require( \"path\" );\n" ++
   "            var wasm_path = path.join( __dirname, \"XXX.wasm\" );\n" ++
   "            var buffer = fs.readFileSync( wasm_path );\n" ++
   "            var mod = new WebAssembly.Module( buffer );\n" ++
   "            var wasm_instance = new WebAssembly.Instance( mod, instance.imports );\n" ++
   "            return instance.initialize( wasm_instance );\n        \x7d else \x7b\n" ++
   "            var file = fetch( \"XXX.wasm\", \x7bcredentials: \"same-origin\"\x7d );\n\n" ++
   "            var wasm_instance = ( typeof WebAssembly.instantiateStreaming === \"function\"\n" ++
   "                ? WebAssembly.instantiateStreaming( file, instance.imports )\n" ++
   "                    .then( function( result ) \x7b return result.instance; \x7d )\n\n" ++
   "                : file\n                    .then( function( response ) \x7b return response.arrayBuffer(); \x7d )\n" ++
   "                    .then( function( bytes ) \x7b return WebAssembly.compile( bytes ); \x7d )\n" ++
   "                    .then( function( mod ) \x7b return WebAssembly.instantiate( mod, instance.imports ) \x7d ) );\n\n" ++
   "            return wasm_instance\n                .then( function( wasm_instance ) \x7b\n" ++
   "                    var exports = instance.initialize( wasm_instance );\n" ++
   "                    console.log( \"Finished loading Rust wasm module \u0027XXX\u0027\" );\n" ++
   "                    return exports;\n                \x7d)\n                .catch( function( error ) \x7b\n" ++
   "                    console.log( \"Error loading Rust wasm module \u0027XXX\u0027:\", error );\n" ++
   "                    throw error;\n                \x7d);\n        \x7d\n    \x7d( function() \x7b").data

/-- The expected tail scaffold, transcribed verbatim from the raw string
`expected_suffix` in `process_js` (src/build.rs). -/
def sufTemplate : List Char :=
  "\n    \x7d\n     ));\n    \x7d));\n    ".data

/-- Pattern anchored by the Rust code at the start of the input. -/
def preToks : List Tok := tokenizeTemplate preTemplate

/-- Pattern anchored by the Rust code at the end of the input. -/
def sufToks : List Tok := tokenizeTemplate sufTemplate

example : (matchToks preToks preTemplate).isSome = true := by decide
example : matchToks sufToks sufTemplate = some [] := by decide

theorem tokMatches_nil_inv {s : List Char} (h : TokMatches [] s) : s = [] := by
  cases h; rfl

theorem tokMatches_lit_inv {c : Char} {ts : List Tok} {s : List Char}
    (h : TokMatches (Tok.lit c :: ts) s) : ∃ s', s = c :: s' ∧ TokMatches ts s' := by
  cases h with
  | lit h' => exact ⟨_, rfl, h'⟩

theorem tokMatches_ws_chain {ts : List Tok} {s : List Char} (l : List Char)
    (hl : ∀ c ∈ l, isWsChar c = true) (h : TokMatches ts s) :
    TokMatches (Tok.ws :: ts) (l ++ s) := by
  induction l with
  | nil => exact TokMatches.wsNil h
  | cons c l ih =>
    exact TokMatches.wsCons (hl c (List.mem_cons_self c l))
      (ih fun x hx => hl x (List.mem_cons_of_mem c hx))

theorem tokMatches_id_chain {ts : List Tok} {s : List Char} (l : List Char)
    (hl : ∀ c ∈ l, isIdentChar c = true) (h : TokMatches ts s) :
    TokMatches (Tok.ident :: ts) (l ++ s) := by
  induction l with
  | nil => exact TokMatches.idNil h
  | cons c l ih =>
    exact TokMatches.idCons (hl c (List.mem_cons_self c l))
      (ih fun x hx => hl x (List.mem_cons_of_mem c hx))

/-- Soundness of the greedy matcher: a successful run consumes a string of
the pattern's language and leaves the given remainder. -/
theorem matchToks_sound :
    ∀ (ts : List Tok) (s rest : List Char), matchToks ts s = some rest →
      ∃ s₁, s = s₁ ++ rest ∧ TokMatches ts s₁ := by
  intro ts
  induction ts with
  | nil =>
    intro s rest h
    simp only [matchToks, Option.some.injEq] at h
    exact ⟨[], by simp [h], TokMatches.nil⟩
  | cons t ts ih =>
    intro s rest h
    cases t with
    | lit c =>
      cases s with
      | nil => simp [matchToks] at h
      | cons x s' =>
        simp only [matchToks] at h
        by_cases hx : x = c
        · rw [if_pos hx] at h
          obtain ⟨s₁, hs, hm⟩ := ih s' rest h
          exact ⟨c :: s₁, by simp [hx, hs], TokMatches.lit hm⟩
        · rw [if_neg hx] at h
          exact absurd h (by simp)
    | ws =>
      simp only [matchToks] at h
      obtain ⟨s₁, hs, hm⟩ := ih _ rest h
      refine ⟨s.takeWhile isWsChar ++ s₁, ?_, ?_⟩
      · rw [List.append_assoc, ← hs, List.takeWhile_append_dropWhile]
      · exact tokMatches_ws_chain _ (fun c hc => List.mem_takeWhile_imp hc) hm
    | ident =>
      simp only [matchToks] at h
      obtain ⟨s₁, hs, hm⟩ := ih _ rest h
      refine ⟨s.takeWhile isIdentChar ++ s₁, ?_, ?_⟩
      · rw [List.append_assoc, ← hs, List.takeWhile_append_dropWhile]
      · exact tokMatches_id_chain _ (fun c hc => List.mem_takeWhile_imp hc) hm

/-- Head check used by `GoodToks`: the next pattern element is a literal
outside the whitespace class. -/
def noWsHead : List Tok → Bool
  | Tok.lit c :: _ => !isWsChar c
  | _ => false

/-- Head check used by `GoodToks`: the next pattern element is a literal
outside the identifier class, possibly behind one whitespace-run element
whose own following literal is outside both classes. -/
def noIdHead : List Tok → Bool
  | Tok.lit c :: _ => !isIdentChar c
  | Tok.ws :: Tok.lit c :: _ => !isIdentChar c && !isWsChar c
  | _ => false

/-- Separability of a pattern for greedy front matching: every
whitespace-run element is followed by a literal outside the whitespace
class, and every identifier-run element is followed, possibly through one
whitespace-run element, by a literal outside both classes.  The head
pattern built by `process_js` satisfies it. -/
def GoodToks : List Tok → Bool
  | [] => true
  | Tok.lit _ :: ts => GoodToks ts
  | Tok.ws :: ts => noWsHead ts && GoodToks ts
  | Tok.ident :: ts => noIdHead ts && GoodToks ts

/-- Separability for whole-string matching: as `GoodToks`, but the
pattern may end in a final whitespace-run element.  The tail pattern
built by `process_js` satisfies it. -/
def GoodFull : List Tok → Bool
  | [] => true
  | Tok.lit _ :: ts => GoodFull ts
  | Tok.ws :: ts => (ts == [] || noWsHead ts) && GoodFull ts
  | Tok.ident :: ts => noIdHead ts && GoodFull ts

theorem noWsHead_inv {ts : List Tok} (h : noWsHead ts = true) :
    ∃ c ts', ts = Tok.lit c :: ts' ∧ isWsChar c = false := by
  cases ts with
  | nil => simp [noWsHead] at h
  | cons t ts' =>
    cases t with
    | lit c =>
      rw [noWsHead, Bool.not_eq_true'] at h
      exact ⟨c, ts', rfl, h⟩
    | ws => simp [noWsHead] at h
    | ident => simp [noWsHead] at h

theorem noIdHead_inv {ts : List Tok} (h : noIdHead ts = true) :
    (∃ c ts', ts = Tok.lit c :: ts' ∧ isIdentChar c = false) ∨
    (∃ c ts'', ts = Tok.ws :: Tok.lit c :: ts'' ∧ isIdentChar c = false ∧
      isWsChar c = false) := by
  cases ts with
  | nil => simp [noIdHead] at h
  | cons t ts' =>
    cases t with
    | lit c =>
      rw [noIdHead, Bool.not_eq_true'] at h
      exact Or.inl ⟨c, ts', rfl, h⟩
    | ws =>
      cases ts' with
      | nil => simp [noIdHead] at h
      | cons t' ts'' =>
        cases t' with
        | lit c =>
          rw [noIdHead, Bool.and_eq_true, Bool.not_eq_true', Bool.not_eq_true'] at h
          exact Or.inr ⟨c, ts'', rfl, h.1, h.2⟩
        | ws => simp [noIdHead] at h
        | ident => simp [noIdHead] at h
    | ident => simp [noIdHead] at h

theorem tokMatches_ws_split :
    ∀ {l : List Tok} {s : List Char}, TokMatches l s →
      ∀ {ts : List Tok}, l = Tok.ws :: ts →
        ∃ a b, s = a ++ b ∧ (∀ c ∈ a, isWsChar c = true) ∧ TokMatches ts b := by
  intro l s h
  induction h with
  | nil => intro ts hl; cases hl
  | lit _ _ => intro ts hl; cases hl
  | @wsCons c ts' s' hc _ ih =>
    intro ts hl
    cases hl
    obtain ⟨a, b, hs, ha, hb⟩ := ih rfl
    refine ⟨c :: a, b, by simp [hs], ?_, hb⟩
    intro x hx
    rcases List.mem_cons.mp hx with h | h
    · exact h ▸ hc
    · exact ha x h
  | wsNil h' _ =>
    intro ts hl
    cases hl
    exact ⟨[], _, rfl, by simp, h'⟩
  | idCons _ _ _ => intro ts hl; cases hl
  | idNil _ _ => intro ts hl; cases hl

theorem goodToks_ws_inv {ts : List Tok} (hg : GoodToks (Tok.ws :: ts) = true) :
    ∃ c ts', ts = Tok.lit c :: ts' ∧ isWsChar c = false ∧ GoodToks ts = true := by
  rw [GoodToks, Bool.and_eq_true] at hg
  obtain ⟨c, ts', rfl, hc⟩ := noWsHead_inv hg.1
  exact ⟨c, ts', rfl, hc, hg.2⟩

theorem goodToks_id_inv {ts : List Tok} (hg : GoodToks (Tok.ident :: ts) = true) :
    (∃ c ts', ts = Tok.lit c :: ts' ∧ isIdentChar c = false ∧ GoodToks ts = true) ∨
    (∃ c ts'', ts = Tok.ws :: Tok.lit c :: ts'' ∧ isIdentChar c = false ∧
      isWsChar c = false ∧ GoodToks ts = true) := by
  rw [GoodToks, Bool.and_eq_true] at hg
  rcases noIdHead_inv hg.1 with ⟨c, ts', rfl, hc⟩ | ⟨c, ts'', rfl, hc1, hc2⟩
  · exact Or.inl ⟨c, ts', rfl, hc, hg.2⟩
  · exact Or.inr ⟨c, ts'', rfl, hc1, hc2, hg.2⟩

theorem goodFull_ws_inv {ts : List Tok} (hg : GoodFull (Tok.ws :: ts) = true) :
    ts = [] ∨
    ∃ c ts', ts = Tok.lit c :: ts' ∧ isWsChar c = false ∧ GoodFull ts = true := by
  rw [GoodFull, Bool.and_eq_true, Bool.or_eq_true, beq_iff_eq] at hg
  rcases hg.1 with rfl | h
  · exact Or.inl rfl
  · obtain ⟨c, ts', rfl, hc⟩ := noWsHead_inv h
    exact Or.inr ⟨c, ts', rfl, hc, hg.2⟩

theorem goodFull_id_inv {ts : List Tok} (hg : GoodFull (Tok.ident :: ts) = true) :
    (∃ c ts', ts = Tok.lit c :: ts' ∧ isIdentChar c = false ∧ GoodFull ts = true) ∨
    (∃ c ts'', ts = Tok.ws :: Tok.lit c :: ts'' ∧ isIdentChar c = false ∧
      isWsChar c = false ∧ GoodFull ts = true) := by
  rw [GoodFull, Bool.and_eq_true] at hg
  rcases noIdHead_inv hg.1 with ⟨c, ts', rfl, hc⟩ | ⟨c, ts'', rfl, hc1, hc2⟩
  · exact Or.inl ⟨c, ts', rfl, hc, hg.2⟩
  · exact Or.inr ⟨c, ts'', rfl, hc1, hc2, hg.2⟩

/-- Completeness of the greedy matcher on separable patterns: whenever a
decomposition of the input into a matched part and a remainder exists, the
greedy matcher succeeds and consumes exactly the matched part.  Together
with `matchToks_sound` this identifies `matchToks` with the anchored
leftmost-first match of the regex built by `process_js`. -/
theorem matchToks_complete {ts : List Tok} {s₁ : List Char} (h : TokMatches ts s₁) :
    GoodToks ts = true → ∀ s₂, matchToks ts (s₁ ++ s₂) = some s₂ := by
  induction h with
  | nil => intro _ s₂; rfl
  | @lit c ts s _ ih =>
    intro hg s₂
    have hg' : GoodToks ts = true := hg
    show matchToks (Tok.lit c :: ts) (c :: (s ++ s₂)) = some s₂
    simp [matchToks, ih hg' s₂]
  | @wsCons c ts s hc _ ih =>
    intro hg s₂
    have hih := ih hg s₂
    show matchToks (Tok.ws :: ts) (c :: (s ++ s₂)) = some s₂
    simp only [matchToks] at hih ⊢
    rw [List.dropWhile_cons_of_pos hc]
    exact hih
  | @wsNil ts s h ih =>
    intro hg s₂
    obtain ⟨c, ts', hts, hcw, hg'⟩ := goodToks_ws_inv hg
    subst hts
    obtain ⟨s', rfl, _⟩ := tokMatches_lit_inv h
    show matchToks (Tok.ws :: Tok.lit c :: ts') ((c :: s') ++ s₂) = some s₂
    simp only [matchToks, List.cons_append]
    rw [List.dropWhile_cons_of_neg (by simp [hcw])]
    exact ih hg' s₂
  | @idCons c ts s hc _ ih =>
    intro hg s₂
    have hih := ih hg s₂
    show matchToks (Tok.ident :: ts) (c :: (s ++ s₂)) = some s₂
    simp only [matchToks] at hih ⊢
    rw [List.dropWhile_cons_of_pos hc]
    exact hih
  | @idNil ts s h ih =>
    intro hg s₂
    rcases goodToks_id_inv hg with ⟨c, ts', hts, hci, hg'⟩ |
      ⟨c, ts'', hts, hci, hcw, hg'⟩
    · subst hts
      obtain ⟨s', rfl, _⟩ := tokMatches_lit_inv h
      show matchToks (Tok.ident :: Tok.lit c :: ts') ((c :: s') ++ s₂) = some s₂
      simp only [matchToks, List.cons_append]
      rw [List.dropWhile_cons_of_neg (by simp [hci])]
      exact ih hg' s₂
    · subst hts
      obtain ⟨a, b, rfl, ha, hb⟩ := tokMatches_ws_split h rfl
      obtain ⟨b', rfl, _⟩ := tokMatches_lit_inv hb
      show matchToks (Tok.ident :: Tok.ws :: Tok.lit c :: ts'')
        ((a ++ c :: b') ++ s₂) = some s₂
      simp only [matchToks]
      have hdw : ((a ++ c :: b') ++ s₂).dropWhile isIdentChar =
          (a ++ c :: b') ++ s₂ := by
        cases a with
        | nil =>
          simp only [List.nil_append, List.cons_append]
          rw [List.dropWhile_cons_of_neg (by simp [hci])]
        | cons x a' =>
          have hx : isIdentChar x = false :=
            ws_ident_disjoint x (ha x (List.mem_cons_self x a'))
          simp only [List.cons_append]
          rw [List.dropWhile_cons_of_neg (by simp [hx])]
      rw [hdw]
      exact ih hg' s₂

/-- Completeness for whole-string matching, allowing the trailing
whitespace-run element of the tail pattern. -/
theorem matchToks_fullComplete {ts : List Tok} {s : List Char} (h : TokMatches ts s) :
    GoodFull ts = true → matchToks ts s = some [] := by
  induction h with
  | nil => intro _; rfl
  | @lit c ts s _ ih =>
    intro hg
    have hg' : GoodFull ts = true := hg
    show matchToks (Tok.lit c :: ts) (c :: s) = some []
    simp [matchToks, ih hg']
  | @wsCons c ts s hc _ ih =>
    intro hg
    have hih := ih hg
    show matchToks (Tok.ws :: ts) (c :: s) = some []
    simp only [matchToks] at hih ⊢
    rw [List.dropWhile_cons_of_pos hc]
    exact hih
  | @wsNil ts s h ih =>
    intro hg
    rcases goodFull_ws_inv hg with rfl | ⟨c, ts', hts, hcw, hg'⟩
    · have hs := tokMatches_nil_inv h
      subst hs
      rfl
    · subst hts
      obtain ⟨s', rfl, _⟩ := tokMatches_lit_inv h
      show matchToks (Tok.ws :: Tok.lit c :: ts') (c :: s') = some []
      simp only [matchToks]
      rw [List.dropWhile_cons_of_neg (by simp [hcw])]
      exact ih hg'
  | @idCons c ts s hc _ ih =>
    intro hg
    have hih := ih hg
    show matchToks (Tok.ident :: ts) (c :: s) = some []
    simp only [matchToks] at hih ⊢
    rw [List.dropWhile_cons_of_pos hc]
    exact hih
  | @idNil ts s h ih =>
    intro hg
    rcases goodFull_id_inv hg with ⟨c, ts', hts, hci, hg'⟩ |
      ⟨c, ts'', hts, hci, hcw, hg'⟩
    · subst hts
      obtain ⟨s', rfl, _⟩ := tokMatches_lit_inv h
      show matchToks (Tok.ident :: Tok.lit c :: ts') (c :: s') = some []
      simp only [matchToks]
      rw [List.dropWhile_cons_of_neg (by simp [hci])]
      exact ih hg'
    · subst hts
      obtain ⟨a, b, rfl, ha, hb⟩ := tokMatches_ws_split h rfl
      obtain ⟨b', rfl, _⟩ := tokMatches_lit_inv hb
      show matchToks (Tok.ident :: Tok.ws :: Tok.lit c :: ts'') (a ++ c :: b') = some []
      simp only [matchToks]
      have hdw : (a ++ c :: b').dropWhile isIdentChar = a ++ c :: b' := by
        cases a with
        | nil =>
          simp only [List.nil_append]
          rw [List.dropWhile_cons_of_neg (by simp [hci])]
        | cons x a' =>
          have hx : isIdentChar x = false :=
            ws_ident_disjoint x (ha x (List.mem_cons_self x a'))
          simp only [List.cons_append]
          rw [List.dropWhile_cons_of_neg (by simp [hx])]
      rw [hdw]
      exact ih hg'

example : GoodToks preToks = true := by decide
example : GoodFull sufToks = true := by decide

theorem goodToks_pre : GoodToks preToks = true := by decide

theorem goodFull_suf : GoodFull sufToks = true := by decide

/-- Search for the anchored tail pattern: the Rust code matches the tail
pattern with an end-of-input anchor and `find` returns the leftmost such
match, that is, the least index whose tail lies in the pattern's
language.  `sufFindFrom s i` scans the tails of `s` in order, reporting
the absolute index (`i` is the index of the head of `s` in the original
input). -/
def sufFindFrom : List Char → Nat → Option Nat
  | [], i => if matchToks sufToks [] = some [] then some i else none
  | c :: t, i =>
    if matchToks sufToks (c :: t) = some [] then some i else sufFindFrom t (i + 1)

theorem sufFindFrom_none_iff :
    ∀ (s : List Char) (i : Nat), sufFindFrom s i = none ↔
      ∀ j, matchToks sufToks (s.drop j) ≠ some [] := by
  have h0 : ¬ (matchToks sufToks ([] : List Char) = some []) := by decide
  intro s
  induction s with
  | nil =>
    intro i
    constructor
    · intro _ j
      rw [List.drop_nil]
      exact h0
    · intro _
      simp only [sufFindFrom, if_neg h0]
  | cons c t ih =>
    intro i
    by_cases h : matchToks sufToks (c :: t) = some []
    · simp only [sufFindFrom, if_pos h]
      constructor
      · intro hcontra
        exact absurd hcontra (by simp)
      · intro hall
        exact absurd h (hall 0)
    · simp only [sufFindFrom, if_neg h]
      rw [ih (i + 1)]
      constructor
      · intro hall j
        cases j with
        | zero => exact h
        | succ j => rw [List.drop_succ_cons]; exact hall j
      · intro hall j
        have := hall (j + 1)
        rw [List.drop_succ_cons] at this
        exact this

theorem sufFindFrom_some :
    ∀ (s : List Char) (i j : Nat), sufFindFrom s i = some j →
      ∃ k, j = i + k ∧ matchToks sufToks (s.drop k) = some [] := by
  have h0 : ¬ (matchToks sufToks ([] : List Char) = some []) := by decide
  intro s
  induction s with
  | nil =>
    intro i j h
    simp only [sufFindFrom, if_neg h0] at h
    exact Option.noConfusion h
  | cons c t ih =>
    intro i j h
    by_cases hm : matchToks sufToks (c :: t) = some []
    · simp only [sufFindFrom, if_pos hm, Option.some.injEq] at h
      exact ⟨0, by omega, by simpa using hm⟩
    · simp only [sufFindFrom, if_neg hm] at h
      obtain ⟨k, hk, hmk⟩ := ih (i + 1) j h
      exact ⟨k + 1, by omega, by rw [List.drop_succ_cons]; exact hmk⟩

theorem sufFindFrom_isSome_of {s : List Char} {j : Nat}
    (h : matchToks sufToks (s.drop j) = some []) : (sufFindFrom s 0).isSome = true := by
  cases hf : sufFindFrom s 0 with
  | some _ => rfl
  | none => exact absurd h ((sufFindFrom_none_iff s 0).mp hf j)

/-- The input starts with a string of the head pattern's language; this is
exactly the success condition of the `^`-anchored search in `process_js`. -/
def AnchoredPre (input : List Char) : Prop :=
  ∃ p rest, input = p ++ rest ∧ TokMatches preToks p

/-- Some tail of the input lies in the tail pattern's language; this is
exactly the success condition of the end-anchored search in `process_js`. -/
def AnchoredSuf (input : List Char) : Prop :=
  ∃ i, TokMatches sufToks (input.drop i)

theorem anchoredPre_iff (input : List Char) :
    AnchoredPre input ↔ (matchToks preToks input).isSome = true := by
  constructor
  · rintro ⟨p, rest, rfl, h⟩
    rw [matchToks_complete h goodToks_pre rest]
    rfl
  · intro h
    cases hm : matchToks preToks input with
    | none => rw [hm] at h; exact absurd h (by simp)
    | some rest =>
      obtain ⟨p, hp, hmm⟩ := matchToks_sound _ _ _ hm
      exact ⟨p, rest, hp, hmm⟩

theorem anchoredSuf_iff (input : List Char) :
    AnchoredSuf input ↔ (sufFindFrom input 0).isSome = true := by
  constructor
  · rintro ⟨i, h⟩
    exact sufFindFrom_isSome_of (matchToks_fullComplete h goodFull_suf)
  · intro h
    cases hf : sufFindFrom input 0 with
    | none => rw [hf] at h; exact absurd h (by simp)
    | some j =>
      obtain ⟨k, _, hm⟩ := sufFindFrom_some input 0 j hf
      obtain ⟨s₁, hs, hmm⟩ := matchToks_sound _ _ _ hm
      rw [List.append_nil] at hs
      exact ⟨k, hs ▸ hmm⟩

/-- Which characters a single pattern element can contribute. -/
def tokAccepts : Tok → Char → Bool
  | Tok.lit c', c => c == c'
  | Tok.ws, c => isWsChar c
  | Tok.ident, c => isIdentChar c

theorem tokMatches_mem_accepts {ts : List Tok} {s : List Char} (h : TokMatches ts s) :
    ∀ c ∈ s, ∃ tok ∈ ts, tokAccepts tok c = true := by
  induction h with
  | nil => intro c hc; exact absurd hc (by simp)
  | @lit c' ts' s' _ ih =>
    intro c hc
    rcases List.mem_cons.mp hc with rfl | hc'
    · exact ⟨Tok.lit c, List.mem_cons_self _ _, by simp [tokAccepts]⟩
    · obtain ⟨tok, ht, ha⟩ := ih c hc'
      exact ⟨tok, List.mem_cons_of_mem _ ht, ha⟩
  | @wsCons c' ts' s' hc' _ ih =>
    intro c hc
    rcases List.mem_cons.mp hc with rfl | hcm
    · exact ⟨Tok.ws, List.mem_cons_self _ _, by simpa [tokAccepts] using hc'⟩
    · exact ih c hcm
  | @wsNil ts' s' _ ih =>
    intro c hc
    obtain ⟨tok, ht, ha⟩ := ih c hc
    exact ⟨tok, List.mem_cons_of_mem _ ht, ha⟩
  | @idCons c' ts' s' hc' _ ih =>
    intro c hc
    rcases List.mem_cons.mp hc with rfl | hcm
    · exact ⟨Tok.ident, List.mem_cons_self _ _, by simpa [tokAccepts] using hc'⟩
    · exact ih c hcm
  | @idNil ts' s' _ ih =>
    intro c hc
    obtain ⟨tok, ht, ha⟩ := ih c hc
    exact ⟨tok, List.mem_cons_of_mem _ ht, ha⟩

theorem tokMatches_last {ts : List Tok} {s : List Char} (h : TokMatches ts s) :
    ∀ c, ts.getLast? = some (Tok.lit c) → s.getLast? = some c := by
  induction h with
  | nil => intro c hc; exact absurd hc (by simp)
  | @lit c' ts' s' h' ih =>
    intro c hc
    cases ts' with
    | nil =>
      have hs' := tokMatches_nil_inv h'
      subst hs'
      simp only [List.getLast?_singleton, Option.some.injEq, Tok.lit.injEq] at hc
      simp [hc]
    | cons t2 ts2 =>
      rw [List.getLast?_cons_cons] at hc
      have hlast := ih c hc
      have hne : s' ≠ [] := by
        intro hnil
        rw [hnil] at hlast
        simp at hlast
      obtain ⟨y, ys, rfl⟩ := List.exists_cons_of_ne_nil hne
      rw [List.getLast?_cons_cons]
      exact hlast
  | @wsCons c' ts' s' _ _ ih =>
    intro c hc
    have hlast := ih c hc
    have hne : s' ≠ [] := by
      intro hnil
      rw [hnil] at hlast
      simp at hlast
    obtain ⟨y, ys, rfl⟩ := List.exists_cons_of_ne_nil hne
    rw [List.getLast?_cons_cons]
    exact hlast
  | @wsNil ts' s' _ ih =>
    intro c hc
    cases ts' with
    | nil => simp at hc
    | cons t2 ts2 =>
      rw [List.getLast?_cons_cons] at hc
      exact ih c hc
  | @idCons c' ts' s' _ _ ih =>
    intro c hc
    have hlast := ih c hc
    have hne : s' ≠ [] := by
      intro hnil
      rw [hnil] at hlast
      simp at hlast
    obtain ⟨y, ys, rfl⟩ := List.exists_cons_of_ne_nil hne
    rw [List.getLast?_cons_cons]
    exact hlast
  | @idNil ts' s' _ ih =>
    intro c hc
    cases ts' with
    | nil => simp at hc
    | cons t2 ts2 =>
      rw [List.getLast?_cons_cons] at hc
      exact ih c hc

theorem preToks_last : preToks.getLast? = some (Tok.lit (Char.ofNat 123)) := by decide

theorem sufToks_no_brace :
    sufToks.all (fun t => !tokAccepts t (Char.ofNat 123)) = true := by decide

/-- One unit of an operating-system string: either a valid Unicode
character or an invalid byte (carrying the byte's value), mirroring how
an `OsStr` may fail UTF-8 conversion in the Rust code. -/
abbrev OsChar : Type := Option Char

/-- Embeds plain text as an operating-system string. -/
def osOfString (s : String) : List OsChar := s.data.map (fun c => some c)

/-- `OsStr::to_str`: succeeds exactly when every unit is a valid
character. -/
def osToStr (s : List OsChar) : Option (List Char) :=
  match s with
  | [] => some []
  | some c :: rest => (osToStr rest).map (fun l => c :: l)
  | none :: _ => none

/-- `Path::display`: lossy rendering, invalid bytes become U+FFFD. -/
def osDisplay (p : List OsChar) : List Char :=
  p.map (fun u => u.getD (Char.ofNat 65533))

/-- The normalized components of a path, as in Rust's `Path::components`
for the purposes of `file_name`: split at separators, drop empty pieces
and current-directory pieces. -/
def pathComponents (p : List OsChar) : List (List OsChar) :=
  (p.splitOn (some '/')).filter (fun c => c ≠ [] ∧ c ≠ [some '.'])

/-- `Path::file_name`: the final normalized component, unless the path
terminates in a parent-directory component or has no components. -/
def pathFileName (p : List OsChar) : Option (List OsChar) :=
  match (pathComponents p).getLast? with
  | none => none
  | some c => if c = [some '.', some '.'] then none else some c

/-- Index of the last separator dot inside a file name, if any. -/
def lastDotIdx (name : List OsChar) : Option Nat :=
  match name.reverse.findIdx? (fun u => u == some '.') with
  | some j => some (name.length - 1 - j)
  | none => none

/-- `Path::file_stem`: the file name up to its last dot; a name with no
dot, or whose only dot is leading, is its own stem. -/
def pathFileStem (p : List OsChar) : Option (List OsChar) :=
  (pathFileName p).map (fun name =>
    match lastDotIdx name with
    | some i => if i = 0 then name else name.take i
    | none => name)

/-- `Path::extension`: the part of the file name after its last dot,
absent when there is no dot or the only dot is leading. -/
def pathExtension (p : List OsChar) : Option (List OsChar) :=
  (pathFileName p).bind (fun name =>
    match lastDotIdx name with
    | some i => if i = 0 then none else some (name.drop (i + 1))
    | none => none)

example : pathFileStem (osOfString "app.wasm") = some (osOfString "app") := by decide
example : pathFileStem (osOfString "dir/app.tar.gz") = some (osOfString "app.tar") := by decide
example : pathFileStem (osOfString ".hidden") = some (osOfString ".hidden") := by decide
example : pathFileStem (osOfString "a/..") = none := by decide
example : pathFileStem (osOfString "") = none := by decide
example : pathExtension (osOfString "app.wasm") = some (osOfString "wasm") := by decide
example : pathExtension (osOfString "app") = none := by decide
example : osToStr (osOfString "app") = some ("app".data) := by decide
example : osToStr (none :: osOfString "app") = none := by decide

/-- Non-overlapping left-to-right replacement, the semantics of Rust's
`str::replace` for a nonempty needle; defined with an explicit fuel,
which `replaceList` instantiates with the input length (enough because a
successful needle match consumes at least one character). -/
def replaceGo (pat rep : List Char) : Nat → List Char → List Char
  | 0, s => s
  | _ + 1, [] => []
  | fuel + 1, c :: rest =>
    if pat.isPrefixOf (c :: rest) && !pat.isEmpty then
      rep ++ replaceGo pat rep fuel ((c :: rest).drop pat.length)
    else c :: replaceGo pat rep fuel rest

/-- `str::replace`: replace every non-overlapping occurrence of `pat` by
`rep`, scanning left to right. -/
def replaceList (pat rep s : List Char) : List Char :=
  replaceGo pat rep s.length s

theorem replaceGo_fuel (pat rep : List Char) :
    ∀ (f₁ : Nat) (s : List Char) (f₂ : Nat), s.length ≤ f₁ → s.length ≤ f₂ →
      replaceGo pat rep f₁ s = replaceGo pat rep f₂ s := by
  intro f₁
  induction f₁ with
  | zero =>
    intro s f₂ h₁ _
    have hs : s = [] := List.eq_nil_of_length_eq_zero (Nat.le_zero.mp h₁)
    subst hs
    cases f₂ <;> rfl
  | succ f₁ ih =>
    intro s f₂ h₁ h₂
    cases s with
    | nil => cases f₂ <;> rfl
    | cons c rest =>
      cases f₂ with
      | zero => simp at h₂
      | succ f₂ =>
        simp only [replaceGo]
        by_cases hp : pat.isPrefixOf (c :: rest) && !pat.isEmpty
        · rw [if_pos hp, if_pos hp]
          congr 1
          have hpat : 1 ≤ pat.length := by
            rcases Bool.and_eq_true .. ▸ hp with ⟨_, hne⟩
            cases pat with
            | nil => simp at hne
            | cons _ _ => simp
          apply ih
          · simp only [List.length_drop, List.length_cons] at *
            omega
          · simp only [List.length_drop, List.length_cons] at *
            omega
        · rw [if_neg hp, if_neg hp]
          congr 1
          apply ih
          · simp only [List.length_cons] at h₁
            omega
          · simp only [List.length_cons] at h₂
            omega

theorem replaceList_cons (pat rep : List Char) (c : Char) (rest : List Char) :
    replaceList pat rep (c :: rest) =
      if pat.isPrefixOf (c :: rest) && !pat.isEmpty then
        rep ++ replaceList pat rep ((c :: rest).drop pat.length)
      else c :: replaceList pat rep rest := by
  show replaceGo pat rep (rest.length + 1) (c :: rest) = _
  simp only [replaceGo]
  by_cases hp : pat.isPrefixOf (c :: rest) && !pat.isEmpty
  · rw [if_pos hp, if_pos hp]
    congr 1
    have hpat : 1 ≤ pat.length := by
      rcases Bool.and_eq_true .. ▸ hp with ⟨_, hne⟩
      cases pat with
      | nil => simp at hne
      | cons _ _ => simp
    apply replaceGo_fuel
    · simp only [List.length_drop, List.length_cons]
      omega
    · exact Nat.le_refl _
  · rw [if_neg hp, if_neg hp]
    rfl

/-- Substring occurrence test: some tail of `s` starts with `pat`. -/
def containsSub : List Char → List Char → Bool
  | pat, [] => pat.isEmpty
  | pat, c :: rest => pat.isPrefixOf (c :: rest) || containsSub pat rest

theorem containsSub_append_left {pat a : List Char} (b : List Char)
    (h : containsSub pat a = true) : containsSub pat (a ++ b) = true := by
  induction a with
  | nil =>
    simp only [containsSub, List.isEmpty_iff] at h
    subst h
    cases b with
    | nil => rfl
    | cons c rest =>
      simp [containsSub, List.isPrefixOf]
  | cons c a' ih =>
    simp only [containsSub, Bool.or_eq_true] at h
    rcases h with h | h
    · rw [List.isPrefixOf_iff_prefix] at h
      simp only [List.cons_append, containsSub, Bool.or_eq_true]
      exact Or.inl (List.isPrefixOf_iff_prefix.mpr
        (h.trans (List.prefix_append (c :: a') b)))
    · simp only [List.cons_append, containsSub, Bool.or_eq_true]
      exact Or.inr (ih h)

/-- Modelled from the spec: the optimizer profile of the build section —
shrink level, optimization level and debug-info flag, as read from
`config.build.binaryen` by `execute_binaryen_pass` (the `crate::config`
module defining the struct is not among the sources; its fields are
fixed by their uses in src/build.rs and by the spec's data model). -/
structure BinaryenConfiguration where
  shrink_level : Nat
  optimization_level : Nat
  debug_info : Bool
deriving DecidableEq

/-- Modelled from the spec: the build section of the configuration —
output binary filename, output script filename, optional initialization
header path (the `crate::config` module defining the struct is not among
the sources; the fields are fixed by their uses in src/build.rs and by
the spec's data model). -/
structure BuildConfiguration where
  output_wasm_file : List OsChar
  output_js_file : List OsChar
  initialization_header_file : Option (List OsChar)
  binaryen : BinaryenConfiguration
deriving DecidableEq

/-- The failures `process_js` can report, tagged with the data each
message interpolates. -/
inductive JsError where
  | loaderMismatchPre (fileName : List Char)
  | loaderMismatchSuf (fileName : List Char)
  | invalidModuleNameNoStem (path : List OsChar)
  | invalidModuleNameNotUtf8 (path : List OsChar)
  | headerReadFailed
deriving DecidableEq

/-- The user-facing message of each `process_js` failure, as formatted by
the Rust code; the header-read failure's text comes from the operating
system and is not modelled. -/
def errorMessage : JsError → Option (List Char)
  | JsError.loaderMismatchPre fn => some
      (("\u0027cargo web\u0027 generated unexpected JS prefix! This means it\u0027s " ++
        "updated without \u0027cargo screeps\u0027 also having updated. Please report " ++
        "this issue to https://github.com/rustyscreeps/cargo-screeps/issues " ++
        "and include the first ~30 lines of ").data ++ fn)
  | JsError.loaderMismatchSuf fn => some
      (("\u0027cargo web\u0027 generated unexpected JS suffix! This means it\u0027s " ++
        "updated without \u0027cargo screeps\u0027 also having updated. Please report " ++
        "this issue to https://github.com/rustyscreeps/cargo-screeps/issues " ++
        "and include the last ~30 lines of ").data ++ fn)
  | JsError.invalidModuleNameNoStem p => some
      (("expected output_wasm_file ending in a filename, but found ").data ++ osDisplay p)
  | JsError.invalidModuleNameNotUtf8 p => some
      (("expected output_wasm_file with UTF8 filename, but found ").data ++ osDisplay p)
  | JsError.headerReadFailed => none

/-- The remediation guidance carried by both loader-shape-mismatch
messages. -/
def reportGuidance : List Char :=
  "Please report this issue to https://github.com/rustyscreeps/cargo-screeps/issues".data

/-- The result of `process_js`: a transformed script, a reported error,
or a panic of the Rust process (an out-of-range slice). -/
inductive JsResult where
  | ok (out : List Char)
  | error (e : JsError)
  | panicked
deriving DecidableEq

/-- Module-name derivation of `process_js`: the stem of the configured
output binary filename, which must exist and convert to plain text. -/
def derive_module_name (p : List OsChar) : Except JsError (List Char) :=
  match pathFileStem p with
  | none => Except.error (JsError.invalidModuleNameNoStem p)
  | some stem =>
    match osToStr stem with
    | none => Except.error (JsError.invalidModuleNameNotUtf8 p)
    | some n => Except.ok n

/-- The initialization header used by `process_js`: the contents of the
configured header file when one is configured (`none` models a failing
read), otherwise the built-in default asset.  The default asset's text is
a parameter: its file (resources/default_initialization_header.js, pulled
in with an include-str) is not among the sources, and no claim depends on
its contents. -/
def resolvedHeader (config : BuildConfiguration)
    (headerFileContents : Option (List Char)) (defaultHeader : List Char) :
    Option (List Char) :=
  match config.initialization_header_file with
  | some _ => headerFileContents
  | none => some defaultHeader

/-- Text placed by the assembly format string between the header and the
module name: opens the generated loader function whose body fetches the
binary module bytes through the host's `require`. -/
def glueFetch : List Char :=
  "\n\nfunction wasm_fetch_module_bytes() \x7b\n    \"use strict\";\n    return require(\u0027".data

/-- Text between the module name and the extracted bootstrap body: closes
the fetch function and opens the generated wrapper function. -/
def glueWrap : List Char :=
  "\u0027);\n\x7d\n\nfunction wasm_create_stdweb_vars() \x7b\n    \"use strict\";\n    ".data

/-- Text after the bootstrap body: closes the wrapper function. -/
def glueEnd : List Char := "\n\x7d\n".data

/-- The final assembly format string of `process_js`. -/
def assembleOutput (header moduleName body : List Char) : List Char :=
  header ++ glueFetch ++ moduleName ++ glueWrap ++ body ++ glueEnd

/-- The needle of the console rewrite: the call unsupported by the target
host. -/
def consoleErr : List Char := "console.error".data

/-- The replacement of the console rewrite: the platform-provided
equivalent. -/
def consoleErrRepl : List Char := "console_error".data

/-- Shallow embedding of `process_js` (src/build.rs).  In order: anchored
search for the head pattern at the start of the input, anchored search
for the tail pattern ending at the end of the input, the slice of the
input strictly between the two matches (a Rust panic when the slice
bounds cross), the console-error rewrite on that slice, module-name
derivation from the configured output binary filename, choice of the
initialization header, and final assembly.  File reads are passed in as
arguments (`headerFileContents` is the content of the configured header
file, `defaultHeader` the built-in asset); `fileName` is the display
form of the processed file's path, used only in messages. -/
def process_js (fileName : List Char) (input : List Char)
    (config : BuildConfiguration) (headerFileContents : Option (List Char))
    (defaultHeader : List Char) : JsResult :=
  match matchToks preToks input with
  | none => JsResult.error (JsError.loaderMismatchPre fileName)
  | some rest =>
    match sufFindFrom input 0 with
    | none => JsResult.error (JsError.loaderMismatchSuf fileName)
    | some sStart =>
      if sStart < input.length - rest.length then JsResult.panicked
      else
        match derive_module_name config.output_wasm_file with
        | Except.error e => JsResult.error e
        | Except.ok moduleName =>
          match resolvedHeader config headerFileContents defaultHeader with
          | none => JsResult.error JsError.headerReadFailed
          | some header =>
            JsResult.ok (assembleOutput header moduleName
              (replaceList consoleErr consoleErrRepl
                ((input.take sStart).drop (input.length - rest.length))))

/-- Strips a template to the shortest string its pattern matches: drop
the placeholders and all whitespace. -/
def removeXXX : List Char → List Char
  | [] => []
  | 'X' :: 'X' :: 'X' :: rest => removeXXX rest
  | c :: rest => c :: removeXXX rest

def stripMin (l : List Char) : List Char :=
  (removeXXX l).filter (fun c => !isWsChar c)

example : matchToks preToks (stripMin preTemplate) = some [] := by decide
example : matchToks sufToks (stripMin sufTemplate) = some [] := by decide

/-- The parsed configuration file of cargo-screeps (setup.rs), after the
parser's per-field defaults: `username` and `password` are required;
`branch`, `hostname` and `ptr` carry their defaults when absent; `ssl`
and `port` remain absent when not supplied, their values being derived
afterwards. -/
structure FileConfiguration where
  username : String
  password : String
  branch : String
  hostname : String
  ssl : Option Bool
  port : Option Int
  ptr : Bool
deriving DecidableEq

/-- The resolved platform configuration of cargo-screeps (setup.rs). -/
structure Configuration where
  username : String
  password : String
  branch : String
  hostname : String
  ssl : Bool
  port : Int
  ptr : Bool
deriving DecidableEq

namespace Configuration

/-- The resolution step of `Configuration::setup` (setup.rs), after the
file has been read and parsed: the TLS flag defaults to whether the
hostname equals the canonical production hostname, the port defaults to
443 with TLS and to 80 without, and explicitly supplied values are taken
verbatim. -/
def resolve (fc : FileConfiguration) : Configuration :=
  let ssl := fc.ssl.getD (fc.hostname == "screeps.com")
  let port := fc.port.getD (if ssl then 443 else 80)
  { username := fc.username, password := fc.password, branch := fc.branch,
    hostname := fc.hostname, ssl := ssl, port := port, ptr := fc.ptr }

end Configuration

/-- Classification of a directory entry by file extension, as in the
discovery loop of `build`: `Path::new(&file_name).extension()` converted
to text and compared against the two known extensions. -/
inductive EntryKind where
  | wasm
  | js
  | other
deriving DecidableEq

def entryClass (name : List OsChar) : EntryKind :=
  match (pathExtension name).bind osToStr with
  | some e =>
    if e = "wasm".data then EntryKind.wasm
    else if e = "js".data then EntryKind.js
    else EntryKind.other
  | none => EntryKind.other

/-- The discovery failures of `build`, each naming the scanned directory
and whether the offending category had several or no candidates. -/
inductive LocateError where
  | multipleWasm (dir : List Char)
  | multipleJs (dir : List Char)
  | noWasm (dir : List Char)
  | noJs (dir : List Char)
deriving DecidableEq

/-- The discovery loop of `build`: walks the directory entries in order,
remembering the binary-module file and the script file seen so far and
failing on a second candidate of either kind. -/
def locateLoop (dir : List Char) :
    Option (List OsChar) → Option (List OsChar) → List (List OsChar) →
      Except LocateError (Option (List OsChar) × Option (List OsChar))
  | w, j, [] => Except.ok (w, j)
  | w, j, e :: rest =>
    match entryClass e with
    | EntryKind.wasm =>
      if w.isSome then Except.error (LocateError.multipleWasm dir)
      else locateLoop dir (some e) j rest
    | EntryKind.js =>
      if j.isSome then Except.error (LocateError.multipleJs dir)
      else locateLoop dir w (some e) rest
    | EntryKind.other => locateLoop dir w j rest

/-- Artifact discovery of `build`: the loop over the directory entries,
then the two emptiness checks, the binary module's first. -/
def locateArtifacts (dir : List Char) (entries : List (List OsChar)) :
    Except LocateError (List OsChar × List OsChar) :=
  match locateLoop dir none none entries with
  | Except.error e => Except.error e
  | Except.ok (w, j) =>
    match w with
    | none => Except.error (LocateError.noWasm dir)
    | some wf =>
      match j with
      | none => Except.error (LocateError.noJs dir)
      | some jf => Except.ok (wf, jf)

def countWasm (entries : List (List OsChar)) : Nat :=
  entries.countP (fun e => entryClass e == EntryKind.wasm)

def countJs (entries : List (List OsChar)) : Nat :=
  entries.countP (fun e => entryClass e == EntryKind.js)

/-- A fatal failure of the post-compile portion of `build`. -/
inductive BuildFailure where
  | locateFailed (e : LocateError)
  | jsFailed (e : JsError)
  | jsPanicked
deriving DecidableEq

deriving instance DecidableEq for Except

/-- The observable effects of the post-compile portion of `build`: which
bytes were written for the binary module, whether a warning was logged,
which text was written for the script, and the overall result. -/
structure BuildOutcome where
  wasmWritten : Option (List Nat)
  warned : Bool
  jsWritten : Option (List Char)
  result : Except BuildFailure Unit
deriving DecidableEq

/-- Shallow embedding of the post-compile portion of `build`
(src/build.rs): discover the two artifacts, run the optimizer pass and on
its failure log a warning and copy the unoptimized bytes verbatim, then
transform the script.  The optimizer itself is an external collaborator
(the binaryen crate), passed as the function `optimize`, with `none`
modelling its parse failure; file contents are passed in as arguments.
The binary module's bytes are written before the script is processed, as
in the source. -/
def buildPipeline
    (optimize : BinaryenConfiguration → List Nat → Option (List Nat))
    (dir : List Char) (entries : List (List OsChar)) (wasmBytes : List Nat)
    (jsFileName : List Char) (jsContent : List Char)
    (config : BuildConfiguration) (headerFileContents : Option (List Char))
    (defaultHeader : List Char) : BuildOutcome :=
  match locateArtifacts dir entries with
  | Except.error e =>
    { wasmWritten := none, warned := false, jsWritten := none,
      result := Except.error (BuildFailure.locateFailed e) }
  | Except.ok _ =>
    let out :=
      match optimize config.binaryen wasmBytes with
      | some optimized => (optimized, false)
      | none => (wasmBytes, true)
    match process_js jsFileName jsContent config headerFileContents defaultHeader with
    | JsResult.ok text =>
      { wasmWritten := some out.1, warned := out.2, jsWritten := some text,
        result := Except.ok () }
    | JsResult.error e =>
      { wasmWritten := some out.1, warned := out.2, jsWritten := none,
        result := Except.error (BuildFailure.jsFailed e) }
    | JsResult.panicked =>
      { wasmWritten := some out.1, warned := out.2, jsWritten := none,
        result := Except.error BuildFailure.jsPanicked }

theorem derive_module_name_error_shape {p : List OsChar} {e : JsError}
    (h : derive_module_name p = Except.error e) :
    e = JsError.invalidModuleNameNoStem p ∨ e = JsError.invalidModuleNameNotUtf8 p := by
  unfold derive_module_name at h
  split at h
  · injection h with h'
    exact Or.inl h'.symm
  · split at h
    · injection h with h'
      exact Or.inr h'.symm
    · exact Except.noConfusion h

theorem process_js_ok_inv {fileName input : List Char} {config : BuildConfiguration}
    {hc : Option (List Char)} {dh out : List Char}
    (h : process_js fileName input config hc dh = JsResult.ok out) :
    ∃ rest sStart moduleName header,
      matchToks preToks input = some rest ∧
      sufFindFrom input 0 = some sStart ∧
      input.length - rest.length ≤ sStart ∧
      derive_module_name config.output_wasm_file = Except.ok moduleName ∧
      resolvedHeader config hc dh = some header ∧
      out = assembleOutput header moduleName
        (replaceList consoleErr consoleErrRepl
          ((input.take sStart).drop (input.length - rest.length))) := by
  unfold process_js at h
  split at h
  · exact JsResult.noConfusion h
  · rename_i rest hm
    split at h
    · exact JsResult.noConfusion h
    · rename_i sStart hs
      split at h
      · exact JsResult.noConfusion h
      · rename_i hlt
        split at h
        · exact JsResult.noConfusion h
        · rename_i moduleName hd
          split at h
          · exact JsResult.noConfusion h
          · rename_i header hh
            injection h with h'
            exact ⟨rest, sStart, moduleName, header, hm, hs,
              Nat.le_of_not_lt hlt, hd, hh, h'.symm⟩

theorem process_js_pre_error_iff {fileName input : List Char}
    {config : BuildConfiguration} {hc : Option (List Char)} {dh : List Char} :
    process_js fileName input config hc dh =
        JsResult.error (JsError.loaderMismatchPre fileName) ↔
      matchToks preToks input = none := by
  constructor
  · intro h
    unfold process_js at h
    split at h
    · assumption
    · exfalso
      split at h
      · injection h with h'
        exact JsError.noConfusion h'
      · split at h
        · exact JsResult.noConfusion h
        · split at h
          · rename_i e hd
            injection h with h'
            rcases derive_module_name_error_shape hd with he | he <;>
              (rw [h'] at he; exact JsError.noConfusion he)
          · split at h
            · injection h with h'
              exact JsError.noConfusion h'
            · exact JsResult.noConfusion h
  · intro hm
    unfold process_js
    rw [hm]

theorem process_js_suf_error_iff {fileName input : List Char}
    {config : BuildConfiguration} {hc : Option (List Char)} {dh : List Char} :
    process_js fileName input config hc dh =
        JsResult.error (JsError.loaderMismatchSuf fileName) ↔
      ((matchToks preToks input).isSome = true ∧ sufFindFrom input 0 = none) := by
  constructor
  · intro h
    unfold process_js at h
    split at h
    · injection h with h'
      exact absurd h' (by simp)
    · rename_i rest hm
      refine ⟨by rw [hm]; rfl, ?_⟩
      split at h
      · assumption
      · exfalso
        split at h
        · exact JsResult.noConfusion h
        · split at h
          · rename_i e hd
            injection h with h'
            rcases derive_module_name_error_shape hd with he | he <;>
              (rw [h'] at he; exact JsError.noConfusion he)
          · split at h
            · injection h with h'
              exact JsError.noConfusion h'
            · exact JsResult.noConfusion h
  · intro ⟨hm, hs⟩
    unfold process_js
    cases hmm : matchToks preToks input with
    | none => rw [hmm] at hm; exact Bool.noConfusion hm
    | some rest => rw [hs]

theorem process_js_panicked_inv {fileName input : List Char}
    {config : BuildConfiguration} {hc : Option (List Char)} {dh : List Char}
    (h : process_js fileName input config hc dh = JsResult.panicked) :
    ∃ rest sStart, matchToks preToks input = some rest ∧
      sufFindFrom input 0 = some sStart ∧ sStart < input.length - rest.length := by
  unfold process_js at h
  split at h
  · exact JsResult.noConfusion h
  · rename_i rest hm
    split at h
    · exact JsResult.noConfusion h
    · rename_i sStart hs
      split at h
      · rename_i hlt
        exact ⟨rest, sStart, hm, hs, hlt⟩
      · split at h
        · exact JsResult.noConfusion h
        · split at h
          · exact JsResult.noConfusion h
          · exact JsResult.noConfusion h

theorem getLast?_to_append {α : Type} {l : List α} {a : α} (h : l.getLast? = some a) :
    ∃ l', l = l' ++ [a] := by
  induction l with
  | nil => exact absurd h (by simp)
  | cons x xs ih =>
    cases xs with
    | nil =>
      simp only [List.getLast?_singleton, Option.some.injEq] at h
      exact ⟨[], by simp [h]⟩
    | cons y ys =>
      rw [List.getLast?_cons_cons] at h
      obtain ⟨l', hl⟩ := ih h
      exact ⟨x :: l', by simp [hl]⟩

/-- Whenever both anchored searches of `process_js` succeed, the head
match ends at or before the start of the tail match: the head pattern
forces its match to end with an opening brace, a character no element of
the tail pattern accepts, so no tail match can begin strictly inside a
head match. -/
theorem pre_suf_no_overlap {input rest : List Char} {sStart : Nat}
    (hm : matchToks preToks input = some rest)
    (hs : sufFindFrom input 0 = some sStart) :
    input.length - rest.length ≤ sStart := by
  obtain ⟨p, hp, hpm⟩ := matchToks_sound _ _ _ hm
  have hplast : p.getLast? = some (Char.ofNat 123) :=
    tokMatches_last hpm _ preToks_last
  obtain ⟨p', hp'⟩ := getLast?_to_append hplast
  obtain ⟨k, hk0, hsm⟩ := sufFindFrom_some input 0 sStart hs
  have hks : k = sStart := by omega
  subst hks
  obtain ⟨s₁, hs₁, hsmm⟩ := matchToks_sound _ _ _ hsm
  rw [List.append_nil] at hs₁
  subst hs₁
  by_contra hlt
  push_neg at hlt
  have hlen : input.length - rest.length = p'.length + 1 := by
    subst hp
    subst hp'
    simp only [List.length_append, List.length_cons, List.length_nil]
    omega
  have hkle : k ≤ p'.length := by omega
  have hmem : (Char.ofNat 123) ∈ input.drop k := by
    subst hp
    subst hp'
    rw [List.append_assoc, List.drop_append_of_le_length hkle]
    exact List.mem_append_right _ (List.mem_append_left _ (by simp))
  obtain ⟨tok, htok, hacc⟩ := tokMatches_mem_accepts hsmm _ hmem
  have hno := List.all_eq_true.mp sufToks_no_brace tok htok
  rw [hacc] at hno
  exact Bool.noConfusion hno

theorem consoleErr_chars :
    consoleErr = ['c', 'o', 'n', 's', 'o', 'l', 'e', '.', 'e', 'r', 'r', 'o', 'r'] := by
  decide

theorem consoleErrRepl_chars :
    consoleErrRepl = ['c', 'o', 'n', 's', 'o', 'l', 'e', '_', 'e', 'r', 'r', 'o', 'r'] := by
  decide

/-- No occurrence of the needle straddles or lies inside the replacement
text: the needle differs from the replacement within their common length,
and no proper tail of the replacement starts with the needle's first
character. -/
theorem contains_ce_repl_append (X : List Char) :
    containsSub consoleErr (consoleErrRepl ++ X) = containsSub consoleErr X := by
  rw [consoleErr_chars, consoleErrRepl_chars]
  simp +decide [containsSub, List.isPrefixOf, List.cons_append]

theorem drop_succ_tail {α : Type} : ∀ (l : List α) (n : Nat), l.drop (n + 1) = (l.drop n).tail := by
  intro l n
  induction n generalizing l with
  | zero => cases l <;> simp
  | succ n ih =>
    cases l with
    | nil => simp
    | cons c t =>
      rw [List.drop_succ_cons, ih t, List.drop_succ_cons]

theorem ce_drop_ne_nil : ∀ k, k < 13 → consoleErr.drop k ≠ [] := by decide

theorem ce_drop_head_ne : ∀ k, k < 13 → 1 ≤ k →
    (consoleErr.drop k).head? ≠ some 'c' := by decide

/-- A proper tail of the needle that is a front of the partially replaced
text is already a front of the original text: replacements start with the
replacement text, whose head character the needle's proper tails never
begin with. -/
theorem replace_keep_tail :
    ∀ (t : List Char) (k : Nat), 1 ≤ k → k < 13 →
      (consoleErr.drop k).isPrefixOf (replaceList consoleErr consoleErrRepl t) = true →
      (consoleErr.drop k).isPrefixOf t = true := by
  intro t
  induction t with
  | nil =>
    intro k _ hk13 h
    obtain ⟨q, Q', hq⟩ := List.exists_cons_of_ne_nil (ce_drop_ne_nil k hk13)
    rw [hq] at h
    exact absurd h (by simp [replaceList, replaceGo, List.isPrefixOf])
  | cons c rest ih =>
    intro k hk1 hk13 h
    rw [replaceList_cons] at h
    obtain ⟨q, Q', hq⟩ := List.exists_cons_of_ne_nil (ce_drop_ne_nil k hk13)
    have hqne : q ≠ 'c' := by
      intro hqc
      apply ce_drop_head_ne k hk13 hk1
      rw [hq, hqc]
      rfl
    by_cases hp : consoleErr.isPrefixOf (c :: rest) && !consoleErr.isEmpty
    · rw [if_pos hp] at h
      rw [consoleErrRepl_chars] at h
      rw [hq] at h
      simp only [List.cons_append, List.isPrefixOf, Bool.and_eq_true, beq_iff_eq] at h
      exact absurd h.1 hqne
    · rw [if_neg hp] at h
      rw [hq] at h
      simp only [List.isPrefixOf, Bool.and_eq_true, beq_iff_eq] at h
      obtain ⟨rfl, hQ'⟩ := h
      have hQ'eq : Q' = consoleErr.drop (k + 1) := by
        rw [drop_succ_tail, hq]
        rfl
      rw [hq]
      by_cases hQnil : Q' = []
      · subst hQnil
        simp [List.isPrefixOf]
      · have hk113 : k + 1 < 13 := by
          by_contra hge
          push_neg at hge
          have hdrop : consoleErr.drop (k + 1) = [] := by
            apply List.drop_of_length_le
            rw [consoleErr_chars]
            simp only [List.length_cons, List.length_nil]
            omega
          rw [← hQ'eq] at hdrop
          exact hQnil hdrop
        have harg : (consoleErr.drop (k + 1)).isPrefixOf
            (replaceList consoleErr consoleErrRepl rest) = true := by
          rw [← hQ'eq]
          exact hQ'
        have hres := ih (k + 1) (by omega) hk113 harg
        rw [← hQ'eq] at hres
        simp [List.isPrefixOf, hres]

theorem replace_no_ce_bounded :
    ∀ (n : Nat) (t : List Char), t.length ≤ n →
      containsSub consoleErr (replaceList consoleErr consoleErrRepl t) = false := by
  intro n
  induction n with
  | zero =>
    intro t ht
    have hnil : t = [] := List.eq_nil_of_length_eq_zero (Nat.le_zero.mp ht)
    subst hnil
    decide
  | succ n ih =>
    intro t ht
    cases t with
    | nil => decide
    | cons c rest =>
      rw [replaceList_cons]
      by_cases hp : consoleErr.isPrefixOf (c :: rest) && !consoleErr.isEmpty
      · rw [if_pos hp]
        rw [contains_ce_repl_append]
        apply ih
        have h13 : consoleErr.length = 13 := by decide
        simp only [List.length_drop, List.length_cons, h13]
        simp only [List.length_cons] at ht
        omega
      · rw [if_neg hp]
        simp only [containsSub]
        have h2' : containsSub consoleErr (replaceList consoleErr consoleErrRepl rest) = false := by
          apply ih
          simp only [List.length_cons] at ht
          omega
        rw [h2', Bool.or_false]
        by_contra hcontra
        rw [Bool.not_eq_false] at hcontra
        rw [consoleErr_chars] at hcontra
        simp only [List.isPrefixOf, Bool.and_eq_true, beq_iff_eq] at hcontra
        obtain ⟨hc, htail⟩ := hcontra
        have hdrop1 :
            consoleErr.drop 1 = ['o', 'n', 's', 'o', 'l', 'e', '.', 'e', 'r', 'r', 'o', 'r'] := by
          decide
        have hkeep := replace_keep_tail rest 1 (by omega) (by omega)
          (by rw [hdrop1]; exact htail)
        rw [hdrop1] at hkeep
        have hpre : consoleErr.isPrefixOf (c :: rest) = true := by
          rw [consoleErr_chars]
          simp only [List.isPrefixOf, Bool.and_eq_true, beq_iff_eq]
          exact ⟨hc, hkeep⟩
        apply hp
        rw [hpre]
        decide

/-- The console rewrite leaves no occurrence of the needle behind. -/
theorem replace_no_ce (t : List Char) :
    containsSub consoleErr (replaceList consoleErr consoleErrRepl t) = false :=
  replace_no_ce_bounded t.length t (Nat.le_refl _)

theorem locateLoop_ok (dir : List Char) :
    ∀ (es : List (List OsChar)) (w j w' j' : Option (List OsChar)),
      locateLoop dir w j es = Except.ok (w', j') →
        (w'.isSome = true ↔ (w.isSome = true ∨ countWasm es = 1)) ∧
        (j'.isSome = true ↔ (j.isSome = true ∨ countJs es = 1)) ∧
        countWasm es + (if w.isSome then 1 else 0) ≤ 1 ∧
        countJs es + (if j.isSome then 1 else 0) ≤ 1 := by
  intro es
  induction es with
  | nil =>
    intro w j w' j' h
    simp only [locateLoop, Except.ok.injEq, Prod.mk.injEq] at h
    obtain ⟨rfl, rfl⟩ := h
    refine ⟨by simp [countWasm], by simp [countJs], ?_, ?_⟩ <;>
      (simp only [countWasm, countJs, List.countP_nil]; split <;> omega)
  | cons e es ih =>
    intro w j w' j' h
    simp only [locateLoop] at h
    split at h
    · rename_i heq
      split at h
      · exact Except.noConfusion h
      · rename_i hw
        obtain ⟨A1, A2, A3, A4⟩ := ih (some e) j w' j' h
        simp only [Option.isSome_some, true_or, iff_true] at A1
        simp only [Option.isSome_some, if_pos] at A3
        have hcw : countWasm (e :: es) = countWasm es + 1 := by
          simp +decide [countWasm, List.countP_cons, heq]
        have hcj : countJs (e :: es) = countJs es := by
          simp +decide [countJs, List.countP_cons, heq]
        refine ⟨?_, ?_, ?_, ?_⟩
        · rw [A1]
          simp only [true_iff]
          right
          omega
        · rw [hcj]
          exact A2
        · rw [hcw, if_neg hw]
          omega
        · rw [hcj]
          exact A4
    · rename_i heq
      split at h
      · exact Except.noConfusion h
      · rename_i hj
        obtain ⟨A1, A2, A3, A4⟩ := ih w (some e) w' j' h
        simp only [Option.isSome_some, true_or, iff_true] at A2
        simp only [Option.isSome_some, if_pos] at A4
        have hcw : countWasm (e :: es) = countWasm es := by
          simp +decide [countWasm, List.countP_cons, heq]
        have hcj : countJs (e :: es) = countJs es + 1 := by
          simp +decide [countJs, List.countP_cons, heq]
        refine ⟨?_, ?_, ?_, ?_⟩
        · rw [hcw]
          exact A1
        · rw [A2]
          simp only [true_iff]
          right
          omega
        · rw [hcw]
          exact A3
        · rw [hcj, if_neg hj]
          omega
    · rename_i heq
      obtain ⟨A1, A2, A3, A4⟩ := ih w j w' j' h
      have hcw : countWasm (e :: es) = countWasm es := by
        simp +decide [countWasm, List.countP_cons, heq]
      have hcj : countJs (e :: es) = countJs es := by
        simp +decide [countJs, List.countP_cons, heq]
      exact ⟨hcw ▸ A1, hcj ▸ A2, hcw ▸ A3, hcj ▸ A4⟩

theorem locateLoop_multipleWasm (dir : List Char) :
    ∀ (es : List (List OsChar)) (w j : Option (List OsChar)) (d : List Char),
      locateLoop dir w j es = Except.error (LocateError.multipleWasm d) →
        d = dir ∧ 2 ≤ countWasm es + (if w.isSome then 1 else 0) := by
  intro es
  induction es with
  | nil =>
    intro w j d h
    exact Except.noConfusion h
  | cons e es ih =>
    intro w j d h
    simp only [locateLoop] at h
    split at h
    · rename_i heq
      have hcw : countWasm (e :: es) = countWasm es + 1 := by
        simp +decide [countWasm, List.countP_cons, heq]
      split at h
      · rename_i hw
        injection h with h'
        injection h' with hd
        refine ⟨hd.symm, ?_⟩
        rw [hcw, if_pos hw]
        omega
      · rename_i hw
        obtain ⟨hd, hb⟩ := ih (some e) j d h
        simp only [Option.isSome_some, if_pos] at hb
        refine ⟨hd, ?_⟩
        rw [hcw, if_neg hw]
        omega
    · rename_i heq
      have hcw : countWasm (e :: es) = countWasm es := by
        simp +decide [countWasm, List.countP_cons, heq]
      split at h
      · injection h with h'
        exact LocateError.noConfusion h'
      · obtain ⟨hd, hb⟩ := ih w (some e) d h
        exact ⟨hd, hcw ▸ hb⟩
    · rename_i heq
      have hcw : countWasm (e :: es) = countWasm es := by
        simp +decide [countWasm, List.countP_cons, heq]
      obtain ⟨hd, hb⟩ := ih w j d h
      exact ⟨hd, hcw ▸ hb⟩

theorem locateLoop_multipleJs (dir : List Char) :
    ∀ (es : List (List OsChar)) (w j : Option (List OsChar)) (d : List Char),
      locateLoop dir w j es = Except.error (LocateError.multipleJs d) →
        d = dir ∧ 2 ≤ countJs es + (if j.isSome then 1 else 0) := by
  intro es
  induction es with
  | nil =>
    intro w j d h
    exact Except.noConfusion h
  | cons e es ih =>
    intro w j d h
    simp only [locateLoop] at h
    split at h
    · rename_i heq
      have hcj : countJs (e :: es) = countJs es := by
        simp +decide [countJs, List.countP_cons, heq]
      split at h
      · injection h with h'
        exact LocateError.noConfusion h'
      · obtain ⟨hd, hb⟩ := ih (some e) j d h
        exact ⟨hd, hcj ▸ hb⟩
    · rename_i heq
      have hcj : countJs (e :: es) = countJs es + 1 := by
        simp +decide [countJs, List.countP_cons, heq]
      split at h
      · rename_i hj
        injection h with h'
        injection h' with hd
        refine ⟨hd.symm, ?_⟩
        rw [hcj, if_pos hj]
        omega
      · rename_i hj
        obtain ⟨hd, hb⟩ := ih w (some e) d h
        simp only [Option.isSome_some, if_pos] at hb
        refine ⟨hd, ?_⟩
        rw [hcj, if_neg hj]
        omega
    · rename_i heq
      have hcj : countJs (e :: es) = countJs es := by
        simp +decide [countJs, List.countP_cons, heq]
      obtain ⟨hd, hb⟩ := ih w j d h
      exact ⟨hd, hcj ▸ hb⟩

theorem locateLoop_not_no (dir : List Char) :
    ∀ (es : List (List OsChar)) (w j : Option (List OsChar)) (d : List Char),
      locateLoop dir w j es ≠ Except.error (LocateError.noWasm d) ∧
      locateLoop dir w j es ≠ Except.error (LocateError.noJs d) := by
  intro es
  induction es with
  | nil =>
    intro w j d
    exact ⟨fun h => Except.noConfusion h, fun h => Except.noConfusion h⟩
  | cons e es ih =>
    intro w j d
    constructor <;>
    · intro h
      simp only [locateLoop] at h
      split at h
      · split at h
        · injection h with h'
          exact LocateError.noConfusion h'
        · first
          | exact (ih (some e) j d).1 h
          | exact (ih (some e) j d).2 h
      · split at h
        · injection h with h'
          exact LocateError.noConfusion h'
        · first
          | exact (ih w (some e) d).1 h
          | exact (ih w (some e) d).2 h
      · first
        | exact (ih w j d).1 h
        | exact (ih w j d).2 h

theorem locateArtifacts_ok_iff (dir : List Char) (entries : List (List OsChar)) :
    (∃ pr, locateArtifacts dir entries = Except.ok pr) ↔
      (countWasm entries = 1 ∧ countJs entries = 1) := by
  constructor
  · rintro ⟨pr, h⟩
    unfold locateArtifacts at h
    split at h
    · exact Except.noConfusion h
    · rename_i w' j' hloop
      split at h
      · exact Except.noConfusion h
      · rename_i wf
        split at h
        · exact Except.noConfusion h
        · rename_i jf
          obtain ⟨A1, A2, _, _⟩ := locateLoop_ok dir entries none none _ _ hloop
          simp only [Option.isSome_some, Option.isSome_none, Bool.false_eq_true,
            false_or, true_iff] at A1 A2
          exact ⟨A1, A2⟩
  · rintro ⟨hw1, hj1⟩
    cases hloop : locateLoop dir none none entries with
    | error e =>
      exfalso
      cases e with
      | multipleWasm d =>
        obtain ⟨_, hb⟩ := locateLoop_multipleWasm dir entries none none d hloop
        simp only [Option.isSome_none, Bool.false_eq_true, if_false] at hb
        omega
      | multipleJs d =>
        obtain ⟨_, hb⟩ := locateLoop_multipleJs dir entries none none d hloop
        simp only [Option.isSome_none, Bool.false_eq_true, if_false] at hb
        omega
      | noWasm d => exact (locateLoop_not_no dir entries none none d).1 hloop
      | noJs d => exact (locateLoop_not_no dir entries none none d).2 hloop
    | ok pr =>
      obtain ⟨w', j'⟩ := pr
      obtain ⟨A1, A2, _, _⟩ := locateLoop_ok dir entries none none w' j' hloop
      simp only [Option.isSome_none, Bool.false_eq_true, false_or] at A1 A2
      obtain ⟨wf, rfl⟩ := Option.isSome_iff_exists.mp (A1.mpr hw1)
      obtain ⟨jf, rfl⟩ := Option.isSome_iff_exists.mp (A2.mpr hj1)
      refine ⟨(wf, jf), ?_⟩
      unfold locateArtifacts
      rw [hloop]

theorem locateArtifacts_error_spec (dir : List Char) (entries : List (List OsChar)) :
    ∀ e, locateArtifacts dir entries = Except.error e →
      (match e with
       | LocateError.multipleWasm d => d = dir ∧ 2 ≤ countWasm entries
       | LocateError.noWasm d => d = dir ∧ countWasm entries = 0
       | LocateError.multipleJs d => d = dir ∧ 2 ≤ countJs entries
       | LocateError.noJs d => d = dir ∧ countJs entries = 0) := by
  intro e h
  unfold locateArtifacts at h
  split at h
  · rename_i e' hloop
    injection h with h'
    subst h'
    cases e' with
    | multipleWasm d =>
      obtain ⟨hd, hb⟩ := locateLoop_multipleWasm dir entries none none d hloop
      simp only [Option.isSome_none, Bool.false_eq_true, if_false] at hb
      exact ⟨hd, by omega⟩
    | multipleJs d =>
      obtain ⟨hd, hb⟩ := locateLoop_multipleJs dir entries none none d hloop
      simp only [Option.isSome_none, Bool.false_eq_true, if_false] at hb
      exact ⟨hd, by omega⟩
    | noWasm d => exact absurd hloop (locateLoop_not_no dir entries none none d).1
    | noJs d => exact absurd hloop (locateLoop_not_no dir entries none none d).2
  · rename_i w' j' hloop
    split at h
    · obtain ⟨A1, _, A3, _⟩ := locateLoop_ok dir entries none none _ _ hloop
      injection h with h'
      subst h'
      simp only [Option.isSome_none, Bool.false_eq_true, false_or, if_false] at A1 A3
      have hne : ¬ countWasm entries = 1 := by
        intro hc
        have := A1.mpr hc
        simp at this
      exact ⟨rfl, by omega⟩
    · rename_i wf
      split at h
      · obtain ⟨_, A2, _, A4⟩ := locateLoop_ok dir entries none none _ _ hloop
        injection h with h'
        subst h'
        simp only [Option.isSome_none, Bool.false_eq_true, false_or, if_false] at A2 A4
        have hne : ¬ countJs entries = 1 := by
          intro hc
          have := A2.mpr hc
          simp at this
        exact ⟨rfl, by omega⟩
      · exact Except.noConfusion h

theorem derive_ok_inv {p : List OsChar} {n : List Char}
    (h : derive_module_name p = Except.ok n) :
    ∃ stem, pathFileStem p = some stem ∧ osToStr stem = some n := by
  unfold derive_module_name at h
  split at h
  · exact Except.noConfusion h
  · rename_i stem hst
    split at h
    · exact Except.noConfusion h
    · rename_i n' hta
      injection h with h'
      exact ⟨stem, hst, h' ▸ hta⟩

theorem process_js_mismatch_shape {fileName input : List Char}
    {config : BuildConfiguration} {hc : Option (List Char)} {dh fn' : List Char} :
    (process_js fileName input config hc dh =
        JsResult.error (JsError.loaderMismatchPre fn') → fn' = fileName) ∧
    (process_js fileName input config hc dh =
        JsResult.error (JsError.loaderMismatchSuf fn') → fn' = fileName) := by
  constructor <;>
  · intro h
    unfold process_js at h
    split at h
    · injection h with h'
      first
        | (injection h' with h''; exact h''.symm)
        | exact JsError.noConfusion h'
    · split at h
      · injection h with h'
        first
          | (injection h' with h''; exact h''.symm)
          | exact JsError.noConfusion h'
      · split at h
        · exact JsResult.noConfusion h
        · split at h
          · rename_i e hd
            injection h with h'
            rcases derive_module_name_error_shape hd with he | he <;>
              (rw [h'] at he; exact JsError.noConfusion he)
          · split at h
            · injection h with h'
              exact JsError.noConfusion h'
            · exact JsResult.noConfusion h

/-- Claim C1: the transformation fails with the head loader-shape-mismatch
error exactly when no front of the input lies in the head pattern's
language, and with the tail loader-shape-mismatch error exactly when the
head anchor matches but no tail of the input lies in the tail pattern's
language; both messages carry the guidance to report the drift upstream;
and on every input made of a head-scaffold variant (whitespace and
placeholder changes only), an arbitrary middle, and a tail-scaffold
variant, both anchors are found and no shape-mismatch error is
reported. -/
theorem loader_shape_mismatch_spec
    (fileName input : List Char) (config : BuildConfiguration)
    (hc : Option (List Char)) (dh : List Char) :
    (process_js fileName input config hc dh =
        JsResult.error (JsError.loaderMismatchPre fileName) ↔ ¬ AnchoredPre input) ∧
    (process_js fileName input config hc dh =
        JsResult.error (JsError.loaderMismatchSuf fileName) ↔
      (AnchoredPre input ∧ ¬ AnchoredSuf input)) ∧
    (∀ msg, errorMessage (JsError.loaderMismatchPre fileName) = some msg →
      containsSub reportGuidance msg = true) ∧
    (∀ msg, errorMessage (JsError.loaderMismatchSuf fileName) = some msg →
      containsSub reportGuidance msg = true) ∧
    (∀ p b s, input = p ++ b ++ s → TokMatches preToks p → TokMatches sufToks s →
      AnchoredPre input ∧ AnchoredSuf input ∧
      (∀ fn', process_js fileName input config hc dh ≠
          JsResult.error (JsError.loaderMismatchPre fn') ∧
        process_js fileName input config hc dh ≠
          JsResult.error (JsError.loaderMismatchSuf fn'))) := by
  refine ⟨?_, ?_, ?_, ?_, ?_⟩
  · rw [process_js_pre_error_iff, anchoredPre_iff]
    exact Option.not_isSome_iff_eq_none.symm
  · rw [process_js_suf_error_iff, anchoredPre_iff, anchoredSuf_iff]
    constructor
    · rintro ⟨h1, h2⟩
      refine ⟨h1, ?_⟩
      rw [h2]
      simp
    · rintro ⟨h1, h2⟩
      refine ⟨h1, ?_⟩
      cases hf : sufFindFrom input 0 with
      | none => rfl
      | some j => exact absurd (by rw [hf]; rfl) h2
  · intro msg hmsg
    simp only [errorMessage, Option.some.injEq] at hmsg
    rw [← hmsg]
    exact containsSub_append_left _ (by decide)
  · intro msg hmsg
    simp only [errorMessage, Option.some.injEq] at hmsg
    rw [← hmsg]
    exact containsSub_append_left _ (by decide)
  · intro p b s hin hpm hsm
    have hpre : AnchoredPre input :=
      ⟨p, b ++ s, by rw [hin, List.append_assoc], hpm⟩
    have hsuf : AnchoredSuf input := by
      refine ⟨(p ++ b).length, ?_⟩
      have : input = (p ++ b) ++ s := by rw [hin, List.append_assoc]
      rw [this, List.drop_left]
      exact hsm
    refine ⟨hpre, hsuf, ?_⟩
    intro fn'
    constructor
    · intro hcontr
      have hfn : fn' = fileName := process_js_mismatch_shape.1 hcontr
      rw [hfn] at hcontr
      have hnone := process_js_pre_error_iff.mp hcontr
      have hsome := (anchoredPre_iff input).mp hpre
      rw [hnone] at hsome
      exact Bool.noConfusion hsome
    · intro hcontr
      have hfn : fn' = fileName := process_js_mismatch_shape.2 hcontr
      rw [hfn] at hcontr
      obtain ⟨_, hnone⟩ := process_js_suf_error_iff.mp hcontr
      have hsome := (anchoredSuf_iff input).mp hsuf
      rw [hnone] at hsome
      exact Bool.noConfusion hsome

/-- A concrete scaffold variant: the head template stripped of whitespace
and placeholders, an arbitrary body, and the stripped tail template. -/
def wInputC1 : List Char :=
  stripMin preTemplate ++ ("console.error(1);".data) ++ stripMin sufTemplate

/-- A concrete build configuration for the witnesses. -/
def cfgW : BuildConfiguration :=
  { output_wasm_file := osOfString "app.wasm"
    output_js_file := osOfString "app.js"
    initialization_header_file := none
    binaryen := { shrink_level := 1, optimization_level := 3, debug_info := false } }

theorem loader_shape_mismatch_spec_witness :
    AnchoredPre wInputC1 ∧ AnchoredSuf wInputC1 ∧
    (∀ fn', process_js [] wInputC1 cfgW none [] ≠
        JsResult.error (JsError.loaderMismatchPre fn') ∧
      process_js [] wInputC1 cfgW none [] ≠
        JsResult.error (JsError.loaderMismatchSuf fn')) := by
  have hpm : TokMatches preToks (stripMin preTemplate) := by
    obtain ⟨s₁, hs, hm⟩ := matchToks_sound preToks (stripMin preTemplate) [] (by decide)
    rw [List.append_nil] at hs
    rw [hs]
    exact hm
  have hsm : TokMatches sufToks (stripMin sufTemplate) := by
    obtain ⟨s₁, hs, hm⟩ := matchToks_sound sufToks (stripMin sufTemplate) [] (by decide)
    rw [List.append_nil] at hs
    rw [hs]
    exact hm
  exact (loader_shape_mismatch_spec [] wInputC1 cfgW none []).2.2.2.2
    (stripMin preTemplate) ("console.error(1);".data) (stripMin sufTemplate)
    rfl hpm hsm

def getOk : JsResult → List Char
  | JsResult.ok o => o
  | _ => []

def outW5 : List Char := getOk (process_js [] wInputC1 cfgW none [])

/-- A successful run of `process_js`, rebuilt from the data of its
anchored matches, module name and header; the produced output does not
depend on the processed file's path, which feeds only error messages. -/
theorem process_js_ok_intro {fn input : List Char} {config : BuildConfiguration}
    {hc : Option (List Char)} {dh : List Char} {rest : List Char} {sStart : Nat}
    {moduleName header : List Char}
    (hm : matchToks preToks input = some rest)
    (hs : sufFindFrom input 0 = some sStart)
    (hd : derive_module_name config.output_wasm_file = Except.ok moduleName)
    (hh : resolvedHeader config hc dh = some header) :
    process_js fn input config hc dh = JsResult.ok (assembleOutput header moduleName
      (replaceList consoleErr consoleErrRepl
        ((input.take sStart).drop (input.length - rest.length)))) := by
  have hle := pre_suf_no_overlap hm hs
  simp only [process_js, hm, hs, hd, hh]
  rw [if_neg (by omega)]

/-- Claim C8: the produced output string is a pure function of the script
text, the resolved build configuration, the optional header file contents
and the built-in default header alone; two runs agreeing on these
produce byte-identical output even when the processed file's path (used
only in error messages) differs, and the embedding consumes no other
input. -/
theorem transform_deterministic
    (fn₁ fn₂ i₁ i₂ : List Char) (c₁ c₂ : BuildConfiguration)
    (h₁ h₂ : Option (List Char)) (d₁ d₂ : List Char)
    (hi : i₁ = i₂) (hcfg : c₁ = c₂) (hh : h₁ = h₂) (hd : d₁ = d₂) :
    ∀ out, process_js fn₁ i₁ c₁ h₁ d₁ = JsResult.ok out ↔
      process_js fn₂ i₂ c₂ h₂ d₂ = JsResult.ok out := by
  subst hi hcfg hh hd
  intro out
  constructor <;>
  · intro h
    obtain ⟨rest, sStart, moduleName, header, hm, hs, _, hda, hha, hout⟩ :=
      process_js_ok_inv h
    rw [hout]
    exact process_js_ok_intro hm hs hda hha

theorem transform_deterministic_witness :
    process_js ("a.js".data) wInputC1 cfgW none [] = JsResult.ok outW5 ↔
    process_js ("b.js".data) wInputC1 cfgW none [] = JsResult.ok outW5 :=
  transform_deterministic ("a.js".data) ("b.js".data) wInputC1 wInputC1 cfgW cfgW
    none none [] [] rfl rfl rfl rfl outW5

/-- Claim C9, counterexample to the claim as stated: no input on which
both anchored patterns match has the tail match starting before the head
match's end, so the situation the claim describes cannot arise. -/
theorem slice_overlap_unreachable :
    ¬ ∃ (input rest : List Char) (sStart : Nat),
        matchToks preToks input = some rest ∧ sufFindFrom input 0 = some sStart ∧
        sStart < input.length - rest.length := by
  rintro ⟨input, rest, sStart, hm, hs, hlt⟩
  exact absurd (pre_suf_no_overlap hm hs) (by omega)

/-- Claim C9, amended: the extraction slices the input between the two
matches without an explicit ordering check, but whenever both anchored
patterns match, the head match's end is at most the tail match's start,
so the slice is in range and the transformation never panics. -/
theorem slice_in_range_spec
    (fileName input : List Char) (config : BuildConfiguration)
    (hc : Option (List Char)) (dh : List Char) (rest : List Char) (sStart : Nat)
    (hm : matchToks preToks input = some rest)
    (hs : sufFindFrom input 0 = some sStart) :
    input.length - rest.length ≤ sStart ∧
    process_js fileName input config hc dh ≠ JsResult.panicked := by
  refine ⟨pre_suf_no_overlap hm hs, ?_⟩
  intro hp
  obtain ⟨rest', sStart', hm', hs', hlt'⟩ := process_js_panicked_inv hp
  rw [hm] at hm'
  injection hm' with he
  rw [hs] at hs'
  injection hs' with hs2
  subst he
  subst hs2
  exact absurd (pre_suf_no_overlap hm hs) (by omega)

theorem slice_in_range_spec_witness :
    wInputC1.length - ((matchToks preToks wInputC1).getD []).length ≤
        (sufFindFrom wInputC1 0).getD 0 ∧
    process_js [] wInputC1 cfgW none [] ≠ JsResult.panicked :=
  slice_in_range_spec [] wInputC1 cfgW none []
    ((matchToks preToks wInputC1).getD []) ((sufFindFrom wInputC1 0).getD 0)
    (by decide) (by decide)

/-- Claim C2: when the optimizer pass fails, the pipeline writes the
unoptimized bytes verbatim, records a warning, the overall result is the
same as with any other optimizer (the failure is never propagated), and
the build still succeeds whenever the script transformation does. -/
theorem optimizer_fallback_spec
    (optimize : BinaryenConfiguration → List Nat → Option (List Nat))
    (dir : List Char) (entries : List (List OsChar)) (wasmBytes : List Nat)
    (jsFileName jsContent : List Char) (config : BuildConfiguration)
    (hc : Option (List Char)) (dh : List Char)
    (hopt : optimize config.binaryen wasmBytes = none)
    (hloc : ∃ pr, locateArtifacts dir entries = Except.ok pr) :
    (buildPipeline optimize dir entries wasmBytes jsFileName jsContent config hc
      dh).wasmWritten = some wasmBytes ∧
    (buildPipeline optimize dir entries wasmBytes jsFileName jsContent config hc
      dh).warned = true ∧
    (∀ optimize',
      (buildPipeline optimize' dir entries wasmBytes jsFileName jsContent config hc
        dh).result =
      (buildPipeline optimize dir entries wasmBytes jsFileName jsContent config hc
        dh).result) ∧
    (∀ out, process_js jsFileName jsContent config hc dh = JsResult.ok out →
      (buildPipeline optimize dir entries wasmBytes jsFileName jsContent config hc
        dh).result = Except.ok () ∧
      (buildPipeline optimize dir entries wasmBytes jsFileName jsContent config hc
        dh).jsWritten = some out) := by
  obtain ⟨pr, hpr⟩ := hloc
  refine ⟨?_, ?_, ?_, ?_⟩
  · simp only [buildPipeline, hpr, hopt]
    cases hjs : process_js jsFileName jsContent config hc dh <;> rfl
  · simp only [buildPipeline, hpr, hopt]
    cases hjs : process_js jsFileName jsContent config hc dh <;> rfl
  · intro optimize'
    simp only [buildPipeline, hpr]
    cases hopt' : optimize' config.binaryen wasmBytes <;>
      rw [hopt] <;>
      cases hjs : process_js jsFileName jsContent config hc dh <;> rfl
  · intro out hout
    simp only [buildPipeline, hpr, hopt, hout]
    exact ⟨trivial, trivial⟩

/-- The directory entries used by the witnesses: one binary module and
one loader script. -/
def entriesW : List (List OsChar) := [osOfString "app.wasm", osOfString "app.js"]

/-- An optimizer that fails on every input, as after an unparsable
module. -/
def optNone : BinaryenConfiguration → List Nat → Option (List Nat) := fun _ _ => none

theorem optimizer_fallback_spec_witness :
    (buildPipeline optNone ("release".data) entriesW [0, 1, 2] [] [] cfgW none
      []).wasmWritten = some [0, 1, 2] ∧
    (buildPipeline optNone ("release".data) entriesW [0, 1, 2] [] [] cfgW none
      []).warned = true ∧
    (∀ optimize',
      (buildPipeline optimize' ("release".data) entriesW [0, 1, 2] [] [] cfgW none
        []).result =
      (buildPipeline optNone ("release".data) entriesW [0, 1, 2] [] [] cfgW none
        []).result) ∧
    (∀ out, process_js [] [] cfgW none [] = JsResult.ok out →
      (buildPipeline optNone ("release".data) entriesW [0, 1, 2] [] [] cfgW none
        []).result = Except.ok () ∧
      (buildPipeline optNone ("release".data) entriesW [0, 1, 2] [] [] cfgW none
        []).jsWritten = some out) :=
  optimizer_fallback_spec optNone ("release".data) entriesW [0, 1, 2] [] [] cfgW
    none [] rfl ⟨(osOfString "app.wasm", osOfString "app.js"), by decide⟩

/-- Claim C3: artifact discovery succeeds exactly when the scanned
directory holds precisely one binary-module entry and one script entry,
success is independent of the enumeration order, and every failure names
the directory and says whether the offending category had no candidate or
several. -/
theorem artifact_discovery_spec (dir : List Char) (entries : List (List OsChar)) :
    ((∃ pr, locateArtifacts dir entries = Except.ok pr) ↔
      (countWasm entries = 1 ∧ countJs entries = 1)) ∧
    (∀ entries', entries.Perm entries' →
      ((∃ pr, locateArtifacts dir entries = Except.ok pr) ↔
        (∃ pr, locateArtifacts dir entries' = Except.ok pr))) ∧
    (∀ e, locateArtifacts dir entries = Except.error e →
      (match e with
       | LocateError.multipleWasm d => d = dir ∧ 2 ≤ countWasm entries
       | LocateError.noWasm d => d = dir ∧ countWasm entries = 0
       | LocateError.multipleJs d => d = dir ∧ 2 ≤ countJs entries
       | LocateError.noJs d => d = dir ∧ countJs entries = 0)) := by
  refine ⟨locateArtifacts_ok_iff dir entries, ?_, locateArtifacts_error_spec dir entries⟩
  intro entries' hperm
  rw [locateArtifacts_ok_iff, locateArtifacts_ok_iff]
  unfold countWasm countJs
  rw [hperm.countP_eq, hperm.countP_eq]

theorem artifact_discovery_spec_witness :
    ∃ pr, locateArtifacts ("release".data) entriesW = Except.ok pr :=
  (artifact_discovery_spec ("release".data) entriesW).1.mpr ⟨by decide, by decide⟩

/-- Claim C4: in the resolved platform configuration, an absent TLS flag
defaults to whether the hostname is the canonical production hostname, an
absent port defaults to 443 with TLS and 80 without, and explicitly
supplied values are taken verbatim. -/
theorem configuration_tls_port_spec (fc : FileConfiguration) :
    (fc.ssl = none →
      ((Configuration.resolve fc).ssl = true ↔ fc.hostname = "screeps.com")) ∧
    (fc.port = none →
      (Configuration.resolve fc).port =
        (if (Configuration.resolve fc).ssl then 443 else 80)) ∧
    (∀ b, fc.ssl = some b → (Configuration.resolve fc).ssl = b) ∧
    (∀ pt, fc.port = some pt → (Configuration.resolve fc).port = pt) := by
  refine ⟨?_, ?_, ?_, ?_⟩
  · intro hssl
    simp [Configuration.resolve, hssl]
  · intro hport
    simp [Configuration.resolve, hport]
  · intro b hssl
    simp [Configuration.resolve, hssl]
  · intro pt hport
    simp [Configuration.resolve, hport]

/-- A configuration file with the production hostname and no explicit
TLS or port values. -/
def fcW : FileConfiguration :=
  { username := "u", password := "p", branch := "default",
    hostname := "screeps.com", ssl := none, port := none, ptr := false }

theorem configuration_tls_port_spec_witness :
    ((Configuration.resolve fcW).ssl = true ↔ fcW.hostname = "screeps.com") ∧
    (Configuration.resolve fcW).port =
      (if (Configuration.resolve fcW).ssl then 443 else 80) :=
  ⟨(configuration_tls_port_spec fcW).1 rfl, (configuration_tls_port_spec fcW).2.1 rfl⟩

/-- Claim C5: on every successful transformation the output embeds the
extracted bootstrap body with every occurrence of the unsupported
console-error call replaced, and no occurrence of the original call
remains in the rewritten body. -/
theorem console_error_rewrite_spec
    (fileName input : List Char) (config : BuildConfiguration)
    (hc : Option (List Char)) (dh out : List Char)
    (h : process_js fileName input config hc dh = JsResult.ok out) :
    ∃ rest sStart header moduleName,
      matchToks preToks input = some rest ∧
      sufFindFrom input 0 = some sStart ∧
      resolvedHeader config hc dh = some header ∧
      derive_module_name config.output_wasm_file = Except.ok moduleName ∧
      out = assembleOutput header moduleName
        (replaceList consoleErr consoleErrRepl
          ((input.take sStart).drop (input.length - rest.length))) ∧
      containsSub consoleErr
        (replaceList consoleErr consoleErrRepl
          ((input.take sStart).drop (input.length - rest.length))) = false := by
  obtain ⟨rest, sStart, moduleName, header, hm, hs, _, hd, hh, hout⟩ :=
    process_js_ok_inv h
  exact ⟨rest, sStart, header, moduleName, hm, hs, hh, hd, hout, replace_no_ce _⟩

theorem console_error_rewrite_spec_witness :
    ∃ rest sStart header moduleName,
      matchToks preToks wInputC1 = some rest ∧
      sufFindFrom wInputC1 0 = some sStart ∧
      resolvedHeader cfgW none [] = some header ∧
      derive_module_name cfgW.output_wasm_file = Except.ok moduleName ∧
      outW5 = assembleOutput header moduleName
        (replaceList consoleErr consoleErrRepl
          ((wInputC1.take sStart).drop (wInputC1.length - rest.length))) ∧
      containsSub consoleErr
        (replaceList consoleErr consoleErrRepl
          ((wInputC1.take sStart).drop (wInputC1.length - rest.length))) = false :=
  console_error_rewrite_spec [] wInputC1 cfgW none [] outW5 (by decide)

/-- Claim C6: every successful output consists, in order, of the
initialization header (the configured file's contents when one is
configured, otherwise the built-in default), the generated loader
function fetching the binary module bytes through the host's `require`,
and the generated wrapper around the rewritten bootstrap body; the fetch
call references exactly the stem of the configured output binary
filename. -/
theorem loader_assembly_spec
    (fileName input : List Char) (config : BuildConfiguration)
    (hc : Option (List Char)) (dh out : List Char)
    (h : process_js fileName input config hc dh = JsResult.ok out) :
    ∃ rest sStart header moduleName stem,
      matchToks preToks input = some rest ∧
      sufFindFrom input 0 = some sStart ∧
      resolvedHeader config hc dh = some header ∧
      (config.initialization_header_file = none → header = dh) ∧
      (∀ hf, config.initialization_header_file = some hf → hc = some header) ∧
      pathFileStem config.output_wasm_file = some stem ∧
      osToStr stem = some moduleName ∧
      out = header ++ glueFetch ++ moduleName ++ glueWrap ++
        replaceList consoleErr consoleErrRepl
          ((input.take sStart).drop (input.length - rest.length)) ++ glueEnd := by
  obtain ⟨rest, sStart, moduleName, header, hm, hs, _, hd, hh, hout⟩ :=
    process_js_ok_inv h
  obtain ⟨stem, hst, hta⟩ := derive_ok_inv hd
  refine ⟨rest, sStart, header, moduleName, stem, hm, hs, hh, ?_, ?_, hst, hta, hout⟩
  · intro hnone
    unfold resolvedHeader at hh
    rw [hnone] at hh
    injection hh with h'
    exact h'.symm
  · intro hf hsome
    unfold resolvedHeader at hh
    rw [hsome] at hh
    exact hh

theorem loader_assembly_spec_witness :
    ∃ rest sStart header moduleName stem,
      matchToks preToks wInputC1 = some rest ∧
      sufFindFrom wInputC1 0 = some sStart ∧
      resolvedHeader cfgW none [] = some header ∧
      (cfgW.initialization_header_file = none → header = []) ∧
      (∀ hf, cfgW.initialization_header_file = some hf → (none : Option (List Char)) = some header) ∧
      pathFileStem cfgW.output_wasm_file = some stem ∧
      osToStr stem = some moduleName ∧
      outW5 = header ++ glueFetch ++ moduleName ++ glueWrap ++
        replaceList consoleErr consoleErrRepl
          ((wInputC1.take sStart).drop (wInputC1.length - rest.length)) ++ glueEnd :=
  loader_assembly_spec [] wInputC1 cfgW none [] outW5 (by decide)

/-- Claim C7: module-name derivation from the configured output binary
filename fails with the no-stem error exactly when the filename has no
stem, with the not-UTF8 error exactly when the stem does not convert to
plain text, succeeds with the stem otherwise, and a derivation failure is
reported by the transformation unchanged. -/
theorem module_name_spec (p : List OsChar) :
    (pathFileStem p = none →
      derive_module_name p = Except.error (JsError.invalidModuleNameNoStem p)) ∧
    (∀ stem, pathFileStem p = some stem → osToStr stem = none →
      derive_module_name p = Except.error (JsError.invalidModuleNameNotUtf8 p)) ∧
    (∀ stem n, pathFileStem p = some stem → osToStr stem = some n →
      derive_module_name p = Except.ok n) ∧
    ((∃ e, derive_module_name p = Except.error e) ↔
      (pathFileStem p = none ∨ ∃ stem, pathFileStem p = some stem ∧ osToStr stem = none)) ∧
    (∀ (fileName input : List Char) (config : BuildConfiguration)
        (hc : Option (List Char)) (dh : List Char) (rest : List Char) (sStart : Nat)
        (e : JsError),
      config.output_wasm_file = p →
      matchToks preToks input = some rest →
      sufFindFrom input 0 = some sStart →
      derive_module_name p = Except.error e →
      process_js fileName input config hc dh = JsResult.error e) := by
  refine ⟨?_, ?_, ?_, ?_, ?_⟩
  · intro hst
    simp only [derive_module_name, hst]
  · intro stem hst hta
    simp only [derive_module_name, hst, hta]
  · intro stem n hst hta
    simp only [derive_module_name, hst, hta]
  · constructor
    · rintro ⟨e, he⟩
      unfold derive_module_name at he
      split at he
      · rename_i hst
        exact Or.inl hst
      · rename_i stem hst
        split at he
        · rename_i hta
          exact Or.inr ⟨stem, hst, hta⟩
        · exact Except.noConfusion he
    · rintro (hst | ⟨stem, hst, hta⟩)
      · exact ⟨JsError.invalidModuleNameNoStem p, by simp only [derive_module_name, hst]⟩
      · exact ⟨JsError.invalidModuleNameNotUtf8 p,
          by simp only [derive_module_name, hst, hta]⟩
  · intro fileName input config hc dh rest sStart e hp hm hs hd
    subst hp
    have hle := pre_suf_no_overlap hm hs
    simp only [process_js, hm, hs, hd]
    rw [if_neg (by omega)]

theorem module_name_spec_witness :
    derive_module_name (osOfString "app.wasm") = Except.ok ("app".data) :=
  (module_name_spec (osOfString "app.wasm")).2.2.1 (osOfString "app") ("app".data)
    (by decide) (by decide)

/-- Claim C10: the console rewrite touches only the extracted bootstrap
body: the header is embedded verbatim at the front of the output and the
generated wrapper text is fixed, so occurrences of the unsupported call
in the header survive into the output unchanged. -/
theorem header_passthrough_spec
    (fileName input : List Char) (config : BuildConfiguration)
    (hc : Option (List Char)) (dh out : List Char)
    (h : process_js fileName input config hc dh = JsResult.ok out) :
    ∃ rest sStart header moduleName,
      matchToks preToks input = some rest ∧
      sufFindFrom input 0 = some sStart ∧
      resolvedHeader config hc dh = some header ∧
      out = header ++ glueFetch ++ moduleName ++ glueWrap ++
        replaceList consoleErr consoleErrRepl
          ((input.take sStart).drop (input.length - rest.length)) ++ glueEnd ∧
      out.take header.length = header ∧
      (containsSub consoleErr header = true → containsSub consoleErr out = true) := by
  obtain ⟨rest, sStart, moduleName, header, hm, hs, _, hd, hh, hout⟩ :=
    process_js_ok_inv h
  refine ⟨rest, sStart, header, moduleName, hm, hs, hh, hout, ?_, ?_⟩
  · rw [hout]
    simp only [assembleOutput, List.append_assoc]
    exact List.take_left _ _
  · intro hctn
    rw [hout]
    simp only [assembleOutput, List.append_assoc]
    exact containsSub_append_left _ hctn

/-- The witness configuration for the pass-through claim: a configured
header file whose contents contain the unsupported call. -/
def cfgW10 : BuildConfiguration :=
  { cfgW with initialization_header_file := some (osOfString "hdr.js") }

def hdrW : List Char := "bootstrap(); console.error;".data

def outW10 : List Char := getOk (process_js [] wInputC1 cfgW10 (some hdrW) [])

theorem header_passthrough_spec_witness :
    ∃ rest sStart header moduleName,
      matchToks preToks wInputC1 = some rest ∧
      sufFindFrom wInputC1 0 = some sStart ∧
      resolvedHeader cfgW10 (some hdrW) [] = some header ∧
      outW10 = header ++ glueFetch ++ moduleName ++ glueWrap ++
        replaceList consoleErr consoleErrRepl
          ((wInputC1.take sStart).drop (wInputC1.length - rest.length)) ++ glueEnd ∧
      outW10.take header.length = header ∧
      (containsSub consoleErr header = true → containsSub consoleErr outW10 = true) :=
  header_passthrough_spec [] wInputC1 cfgW10 (some hdrW) [] outW10 (by decide)
